import Mathlib

/-!
Verification development for the `elum-utils/censor` content-moderation
pipeline.  The Go sources are shallowly embedded as Lean definitions:

* strings are modelled as `List Char` (`Str`); Go slices bytes when
  truncating, which coincides with characters on the ASCII fragment that
  every claim and test exercises;
* `float64` fields (`Confidence`) are modelled as `Rat`;
* `int64` fields are modelled as `Int`;
* Go maps used as sets are modelled as duplicate-free lists, the
  `container/list` LRU is modelled as a list whose head is the MRU end.

Each section names the Go source file and symbols it embeds.
-/

namespace Censor

/-- Strings, modelled as character lists. -/
abbrev Str := List Char

/-- Convenience conversion from Lean string literals. -/
def str (s : String) : Str := s.toList

/-! ## models/message.go -/

/-- StatusCode constant `StatusClean` (1). -/
def statusClean : Int := 1

/-- StatusCode constant `StatusNonCriticalAbuse` (2). -/
def statusNonCriticalAbuse : Int := 2

/-- StatusCode constant `StatusHumanReview` (3). -/
def statusHumanReview : Int := 3

/-- StatusCode constant `StatusSuspicious` (4). -/
def statusSuspicious : Int := 4

/-- StatusCode constant `StatusCommercialOffPlatform` (5). -/
def statusCommercialOffPlatform : Int := 5

/-- StatusCode constant `StatusDangerousIllegal` (6). -/
def statusDangerousIllegal : Int := 6

/-- Deprecated alias `StatusCritical = StatusDangerousIllegal`. -/
def statusCritical : Int := statusDangerousIllegal

/-- Embeds `StatusCode.Valid`: true when the code is in range [1..6]. -/
def statusValid (s : Int) : Prop := statusClean ≤ s ∧ s ≤ statusCritical

instance (s : Int) : Decidable (statusValid s) := by
  unfold statusValid; infer_instance

/-- Embeds `models.Message`. -/
structure Message where
  id : Int
  dialogID : Str
  user : Int
  data : Str
deriving DecidableEq, Repr

/-- Embeds `models.AIResult` (`Confidence float64` becomes `Rat`). -/
structure AIResult where
  statusCode : Int
  reason : Str
  confidence : Rat
  triggerTokens : List Str
  violatorUserID : Int
  messageID : Int
deriving DecidableEq, Repr

/-- Zero value of `AIResult`. -/
def AIResult.zero : AIResult :=
  { statusCode := 0, reason := [], confidence := 0, triggerTokens := [],
    violatorUserID := 0, messageID := 0 }

/-- Embeds `models.Violation`. -/
structure Violation where
  message : Message
  aiResult : AIResult
  triggered : Bool
deriving DecidableEq, Repr

/-- Zero value of `models.Message`. -/
def Message.zero : Message := { id := 0, dialogID := [], user := 0, data := [] }

/-- Zero value of `models.Violation`. -/
def Violation.zero : Violation :=
  { message := Message.zero, aiResult := AIResult.zero, triggered := false }

/-! ## engine/engine.go -/

/-- Embeds the `state` struct of the engine: the token set (a Go map,
modelled as a duplicate-free list) and the phrase list. -/
structure EngineState where
  tokens : List Str
  phrases : List Str
deriving DecidableEq, Repr

/-- Embeds `engine.New`: empty state. -/
def EngineState.empty : EngineState := { tokens := [], phrases := [] }

/-- Character-wise lowering, embedding `strings.ToLower` (ASCII fragment of
the Unicode tables, which is what `Char.toLower` implements). -/
def toLowerStr (s : Str) : Str := s.map Char.toLower

/-- Embeds `strings.TrimSpace` (leading and trailing whitespace removed). -/
def trimSpace (s : Str) : Str :=
  ((s.dropWhile Char.isWhitespace).reverse.dropWhile Char.isWhitespace).reverse

/-- Embeds `engine.normalizeToken`: trim then lowercase.  In Go the calls
are composed as `ToLower(TrimSpace(token))`. -/
def normalizeToken (token : Str) : Str := toLowerStr (trimSpace token)

/-- Embeds `Engine.AddToken`.  Returns the new state and the reported
`bool` (false for empty or duplicate tokens).  A token containing a space
(`strings.ContainsRune(t, ' ')`) is also appended to the phrase list. -/
def addToken (e : EngineState) (token : Str) : EngineState × Bool :=
  let t := normalizeToken token
  if t = [] then (e, false)
  else if t ∈ e.tokens then (e, false)
  else
    ({ tokens := e.tokens ++ [t],
       phrases := if ' ' ∈ t then e.phrases ++ [t] else e.phrases }, true)

/-- Embeds `Engine.RemoveToken`. -/
def removeToken (e : EngineState) (token : Str) : EngineState × Bool :=
  let t := normalizeToken token
  if t = [] then (e, false)
  else if t ∉ e.tokens then (e, false)
  else
    ({ tokens := e.tokens.erase t,
       phrases := if ' ' ∈ t then e.phrases.filter (fun p => p ≠ t) else e.phrases }, true)

/-- Embeds the loop body of `Engine.ReplaceAll`: normalize, skip empty and
duplicate tokens, partition phrases. -/
def replaceAll (tokens : List Str) : EngineState :=
  tokens.foldl
    (fun st token =>
      let t := normalizeToken token
      if t = [] then st
      else if t ∈ st.tokens then st
      else
        { tokens := st.tokens ++ [t],
          phrases := if ' ' ∈ t then st.phrases ++ [t] else st.phrases })
    EngineState.empty

/-- Character class used by `engine.splitTokens`:
`unicode.IsLetter(r) || unicode.IsDigit(r) || r == '_'` (ASCII fragment). -/
def isWordChar (c : Char) : Bool := c.isAlpha || c.isDigit || c = '_'

/-- Loop of `engine.splitTokens`: `cur` is the run being accumulated (the
Go code tracks its start index); a non-word character emits the pending
run, and a pending run left at the end of the text is emitted last. -/
def splitTokensGo : Str → Str → List Str
  | [], cur => if cur = [] then [] else [cur]
  | c :: rest, cur =>
    if isWordChar c then splitTokensGo rest (cur ++ [c])
    else if cur = [] then splitTokensGo rest []
    else cur :: splitTokensGo rest []

/-- Embeds `engine.splitTokens`: maximal runs of word characters. -/
def splitTokens (s : Str) : List Str := splitTokensGo s []

/-- Embeds `Engine.FindTriggers`.  The Go `found` map is modelled as an
insertion-ordered duplicate-free list: pass 1 inserts word-level exact
matches, pass 2 inserts phrases not already found that occur as substrings
(`strings.Contains`) of the lowered text. -/
def findTriggers (e : EngineState) (message : Str) : List Str :=
  let lower := toLowerStr message
  if e.tokens = [] ∨ lower = [] then []
  else
    let found1 := (splitTokens lower).foldl
      (fun acc tok => if tok ∉ acc ∧ tok ∈ e.tokens then acc ++ [tok] else acc) []
    e.phrases.foldl
      (fun acc p => if p ∉ acc ∧ p <:+: lower then acc ++ [p] else acc) found1

/-- Well-formedness of an engine state, as maintained by `AddToken`,
`RemoveToken`, `ReplaceAll` and `Clear`: the token set has no duplicates
and the phrase list holds exactly the stored tokens containing a space. -/
def EngineWF (e : EngineState) : Prop :=
  e.tokens.Nodup ∧ e.phrases.Nodup ∧
  (∀ p, p ∈ e.phrases ↔ (p ∈ e.tokens ∧ ' ' ∈ p))

/-! ## Negative-result cache (core package, `cache.go` listing)

The `container/list` LRU is modelled as `entries : List NegCacheEntry`
with the head at the MRU end and the tail at the LRU end.  The Go
`items map[string]*list.Element` is implied by the key field; reachable
caches keep keys duplicate-free.  `time.Time` becomes `Int` and
`now.After(t)` becomes `now > t`. -/

/-- Embeds `negativeCacheEntry`. -/
structure NegCacheEntry where
  key : Str
  value : AIResult
  expiresAt : Int
  sizeBytes : Int
deriving DecidableEq, Repr

/-- Embeds `negativeResultCache` (mutex dropped; `int64` counters as `Int`). -/
structure NegCache where
  maxBytes : Int
  totalBytes : Int
  entries : List NegCacheEntry
deriving DecidableEq, Repr

/-- Embeds `newNegativeResultCache` for a positive byte budget (the Go
constructor returns `nil` when `maxBytes <= 0`; the pipeline models that
case with `Option NegCache`). -/
def NegCache.new (maxBytes : Int) : NegCache :=
  { maxBytes := maxBytes, totalBytes := 0, entries := [] }

/-- Embeds `estimateEntrySizeBytes`: key length plus reason length plus
trigger-token lengths plus 128 bytes of per-entry overhead. -/
def estimateEntrySizeBytes (key : Str) (value : AIResult) : Int :=
  (key.length : Int) + value.reason.length
    + ((value.triggerTokens.map (fun t => (t.length : Int))).sum) + 128

/-- First entry of the list carrying the given key (the `items` map lookup). -/
def findEntry (key : Str) : List NegCacheEntry → Option NegCacheEntry
  | [] => none
  | e :: rest => if e.key = key then some e else findEntry key rest

/-- Removal of the first entry carrying the given key from the LRU list. -/
def eraseKey (key : Str) : List NegCacheEntry → List NegCacheEntry
  | [] => []
  | e :: rest => if e.key = key then rest else e :: eraseKey key rest

/-- Clamp used by `removeElement`: `if c.totalBytes < 0 { c.totalBytes = 0 }`. -/
def clampZero (n : Int) : Int := if n < 0 then 0 else n

/-- Embeds `negativeResultCache.Get`: empty key misses; an expired hit is
removed (`removeElement`) and misses; a live hit is promoted to MRU and
returns the stored value. -/
def NegCache.get (c : NegCache) (key : Str) (now : Int) :
    Option AIResult × NegCache :=
  if key = [] then (none, c)
  else
    match findEntry key c.entries with
    | none => (none, c)
    | some e =>
      if now > e.expiresAt then
        (none, { c with entries := eraseKey key c.entries,
                        totalBytes := clampZero (c.totalBytes - e.sizeBytes) })
      else
        (some e.value, { c with entries := e :: eraseKey key c.entries })

/-- Loop of `evictToFitLocked`, with an explicit iteration bound: each pass
of the Go `for` loop removes one tail entry, so the entry count bounds the
iterations and the fuelled loop is extensionally the `while` loop. -/
def evictLoop : Nat → NegCache → NegCache
  | 0, c => c
  | fuel + 1, c =>
    match c.entries.getLast? with
    | none => c
    | some last =>
      if c.totalBytes > c.maxBytes then
        evictLoop fuel
          { c with entries := c.entries.dropLast,
                   totalBytes := clampZero (c.totalBytes - last.sizeBytes) }
      else c

/-- Embeds `evictToFitLocked`: pop the LRU tail (with the `removeElement`
decrement-and-clamp) while the total exceeds the budget and entries remain. -/
def NegCache.evictToFit (c : NegCache) : NegCache :=
  evictLoop c.entries.length c

/-- Embeds `negativeResultCache.Set`: guard empty key / non-positive ttl;
refuse an entry larger than the whole budget; upsert (replace value,
expiry and size and promote, or push a fresh entry to MRU); then evict
from the tail until the total fits. -/
def NegCache.set (c : NegCache) (key : Str) (value : AIResult) (ttl : Int)
    (now : Int) : NegCache :=
  if key = [] ∨ ttl ≤ 0 then c
  else
    let expiresAt := now + ttl
    let newSize := estimateEntrySizeBytes key value
    if newSize > c.maxBytes then c
    else
      match findEntry key c.entries with
      | some old =>
        NegCache.evictToFit
          { c with totalBytes := c.totalBytes - old.sizeBytes + newSize,
                   entries :=
                     { key := key, value := value, expiresAt := expiresAt,
                       sizeBytes := newSize } :: eraseKey key c.entries }
      | none =>
        NegCache.evictToFit
          { c with totalBytes := c.totalBytes + newSize,
                   entries :=
                     { key := key, value := value, expiresAt := expiresAt,
                       sizeBytes := newSize } :: c.entries }

/-- Embeds `negativeResultCache.RemoveExpired`: walk from the tail towards
the head, deleting expired entries (each deletion decrements and clamps the
byte counter). -/
def NegCache.removeExpired (c : NegCache) (now : Int) : NegCache :=
  let r := c.entries.foldr
    (fun e acc =>
      if now > e.expiresAt then (acc.1, clampZero (acc.2 - e.sizeBytes))
      else (e :: acc.1, acc.2))
    (([] : List NegCacheEntry), c.totalBytes)
  { c with entries := r.1, totalBytes := r.2 }

/-- Bookkeeping part of the cache invariant: positive budget, the tracked
total equals the sum of the live entry sizes, sizes are non-negative and
keys are unique (the Go `items` map cannot hold a key twice). -/
def NegCache.accounted (c : NegCache) : Prop :=
  0 < c.maxBytes ∧
  c.totalBytes = (c.entries.map (fun e => e.sizeBytes)).sum ∧
  (∀ e ∈ c.entries, 0 ≤ e.sizeBytes) ∧
  (c.entries.map (fun e => e.key)).Nodup

/-- Size-accounting invariant of the cache at quiesce: the bookkeeping
holds and the total fits the byte budget. -/
def NegCache.sizeInv (c : NegCache) : Prop :=
  c.accounted ∧ c.totalBytes ≤ c.maxBytes

/-! ## Core pipeline (core package listing: `Core`, `ProcessBatchWithOptions`,
`learn`, `record`, `dispatchByStatus`, `eventNameFromCode`, the cached-result
helpers and `validate`)

The `Core` receiver fields that the claims depend on are modelled as
`CoreConfig` (configuration) plus `CoreState` (the mutable engine, cache and
the set of tokens handed to `storage.AddToken` by auto-learn).  The injected
analyzer is a function argument; `aiRequested` in the result records the
message list submitted to it (`[]` when the AI stage was skipped). -/

/-- Configuration fields of `Core` used by the pipeline. -/
structure CoreConfig where
  hasAnalyzer : Bool
  hasStorage : Bool
  confidenceThreshold : Rat
  maxMessageSize : Int
  maxLearnTokenLength : Int
  cacheTTL : Int
  autoLearn : Bool
deriving Repr

/-- Mutable state of `Core` threaded through a pipeline call. -/
structure CoreState where
  eng : EngineState
  cache : Option NegCache
  persisted : List Str
deriving Repr

/-- Embeds `Core.getCachedNegative`: a `nil` cache misses; on a hit the
cached result's ids are overwritten from the current message. -/
def getCachedNegative (cache : Option NegCache) (key : Str)
    (message : Message) (now : Int) : Option AIResult × Option NegCache :=
  match cache with
  | none => (none, none)
  | some c =>
    match c.get key now with
    | (none, c') => (none, some c')
    | (some res, c') =>
      (some { res with messageID := message.id, violatorUserID := message.user },
       some c')

/-- Embeds `Core.setCachedNegative`: no-op for a `nil` cache, an empty key
or an invalid status; otherwise stores under the configured TTL. -/
def setCachedNegative (cfg : CoreConfig) (cache : Option NegCache) (key : Str)
    (result : AIResult) (now : Int) : Option NegCache :=
  match cache with
  | none => none
  | some c =>
    if key = [] then some c
    else if ¬ statusValid result.statusCode then some c
    else some (c.set key result cfg.cacheTTL now)

/-- Per-message truncation: `prepared.Data = prepared.Data[:maxMessageSize]`
when the data exceeds the cap. -/
def prepMsg (cfg : CoreConfig) (msg : Message) : Message :=
  if (msg.data.length : Int) > cfg.maxMessageSize then
    { msg with data := msg.data.take cfg.maxMessageSize.toNat }
  else msg

/-- Clean decision synthesized when no trigger fires. -/
def cleanViolation (prepared : Message) : Violation :=
  { message := prepared, triggered := false,
    aiResult :=
      { statusCode := statusClean, reason := str "no trigger", confidence := 1,
        triggerTokens := [], violatorUserID := prepared.user,
        messageID := prepared.id } }

/-- Outcome of the per-message preparation loop body for one message:
either a finished slot or a pending AI submission with its triggers. -/
def prepOne (cfg : CoreConfig) (eng : EngineState) (cache : Option NegCache)
    (now : Int) (skip : Bool) (msg : Message) :
    (Option Violation × Option (Message × List Str)) × Option NegCache :=
  let prepared := prepMsg cfg msg
  let cacheKey := prepared.data
  if skip then
    match getCachedNegative cache cacheKey prepared now with
    | (some cached, cache') =>
      ((some { message := prepared, triggered := false, aiResult := cached },
        none), cache')
    | (none, cache') => ((none, some (prepared, [])), cache')
  else
    let triggers := findTriggers eng prepared.data
    if triggers = [] then
      ((some (cleanViolation prepared), none), cache)
    else
      match getCachedNegative cache cacheKey prepared now with
      | (some cached, cache') =>
        let cached' := if cached.triggerTokens = []
          then { cached with triggerTokens := triggers } else cached
        ((some { message := prepared, triggered := true, aiResult := cached' },
          none), cache')
      | (none, cache') => ((none, some (prepared, triggers)), cache')

/-- A queued AI submission: original input index, prepared message and the
locally found triggers. -/
structure Pending where
  index : Nat
  message : Message
  triggers : List Str
deriving DecidableEq, Repr

/-- The preparation loop of `ProcessBatchWithOptions`: builds the output
slot array (`out` with its parallel `filled` flags) and the `toAnalyze`
queue, threading the cache through the per-message lookups. -/
def prepareLoop (cfg : CoreConfig) (eng : EngineState) (now : Int)
    (skip : Bool) : List Message → Nat → Option NegCache →
    (List Violation × List Bool × List Pending × Option NegCache)
  | [], _, cache => ([], [], [], cache)
  | msg :: rest, i, cache =>
    let r := prepOne cfg eng cache now skip msg
    let tail := prepareLoop cfg eng now skip rest (i + 1) r.2
    match r.1 with
    | (some v, _) => (v :: tail.1, true :: tail.2.1, tail.2.2)
    | (none, some p) =>
      (Violation.zero :: tail.1, false :: tail.2.1,
       { index := i, message := p.1, triggers := p.2 } :: tail.2.2.1, tail.2.2.2)
    | (none, none) =>
      (Violation.zero :: tail.1, false :: tail.2.1, tail.2.2)

/-- Result lookup keyed by `MessageID` (`byID[r.MessageID] = r`, later
entries overwriting earlier ones, then `byID[msg.ID]`). -/
def lookupByID (results : List AIResult) (id : Int) : Option AIResult :=
  results.foldl (fun acc r => if r.messageID = id then some r else acc) none

/-- Fallback result used when the AI response lacks the message id. -/
def missingAIResult (p : Pending) : AIResult :=
  { statusCode := statusSuspicious, reason := str "missing AI result",
    confidence := 0, triggerTokens := p.triggers,
    violatorUserID := p.message.user, messageID := p.message.id }

/-- Normalization applied to a looked-up result: default the violator and
message ids from the message, default empty trigger tokens from the local
triggers. -/
def normalizeResult (r : AIResult) (msg : Message) (triggers : List Str) :
    AIResult :=
  let r1 := if r.violatorUserID = 0 then { r with violatorUserID := msg.user } else r
  let r2 := if r1.messageID = 0 then { r1 with messageID := msg.id } else r1
  if r2.triggerTokens = [] then { r2 with triggerTokens := triggers } else r2

/-- Embeds the per-token body of `Core.learn`: normalize, skip empty, skip
over-long tokens, add to the engine and, only when newly added, persist. -/
def learnToken (cfg : CoreConfig) (acc : EngineState × List Str) (token : Str) :
    EngineState × List Str :=
  let normalized := toLowerStr (trimSpace token)
  if normalized = [] then acc
  else if (normalized.length : Int) > cfg.maxLearnTokenLength then acc
  else
    let r := addToken acc.1 normalized
    if r.2 then (r.1, acc.2 ++ [normalized]) else (r.1, acc.2)

/-- Embeds `Core.learn`: gated on `autoLearn`, a configured storage and the
confidence threshold, then iterates the trigger tokens.  Returns the new
engine state and the tokens handed to `storage.AddToken`. -/
def learn (cfg : CoreConfig) (eng : EngineState) (result : AIResult) :
    EngineState × List Str :=
  if ¬ cfg.autoLearn ∨ ¬ cfg.hasStorage then (eng, [])
  else if result.confidence < cfg.confidenceThreshold then (eng, [])
  else result.triggerTokens.foldl (learnToken cfg) (eng, [])

/-- State threaded through the merge loop. -/
structure MergeState where
  out : List Violation
  filled : List Bool
  eng : EngineState
  cache : Option NegCache
  persisted : List Str
deriving Repr

/-- The merge loop of `ProcessBatchWithOptions`: look up each queued
message's result by id (or fall back), normalize, cache, learn and fill the
message's slot. -/
def mergeLoop (cfg : CoreConfig) (now : Int) (results : List AIResult) :
    List Pending → MergeState → MergeState
  | [], ms => ms
  | p :: rest, ms =>
    let r0 := (lookupByID results p.message.id).getD (missingAIResult p)
    let r := normalizeResult r0 p.message p.triggers
    let v : Violation :=
      { message := p.message, triggered := decide (p.triggers ≠ []), aiResult := r }
    let le := learn cfg ms.eng r
    mergeLoop cfg now results rest
      { out := ms.out.set p.index v,
        filled := ms.filled.set p.index true,
        eng := le.1,
        cache := setCachedNegative cfg ms.cache p.message.data r now,
        persisted := ms.persisted ++ le.2 }

/-- The post-merge invariant check: the first unfilled slot aborts the call
with the internal mismatch error. -/
def checkFilled (out : List Violation) : List Bool → Except String (List Violation)
  | [] => Except.ok out
  | b :: rest =>
    if b then checkFilled out rest
    else Except.error "core: internal batch result mismatch"

/-- Embeds `Core.ProcessBatchWithOptions` (with `Core.validate` and
`Core.analyze` already resolved to the injected batch analyzer).  Returns
the violations in input order, the final mutable state and the list of
messages submitted to the analyzer. -/
def processBatchWithOptions (cfg : CoreConfig)
    (analyze : List Message → Except String (List AIResult))
    (st : CoreState) (now : Int) (messages : List Message) (skip : Bool) :
    Except String (List Violation × CoreState × List Message) :=
  if ¬ cfg.hasAnalyzer then Except.error "core: AI analyzer is nil"
  else if ¬ cfg.hasStorage then Except.error "core: storage is nil"
  else if cfg.maxMessageSize ≤ 0 then Except.error "core: invalid max message size"
  else if messages = [] then Except.ok ([], st, [])
  else
    let prep := prepareLoop cfg st.eng now skip messages 0 st.cache
    let out := prep.1
    let filled := prep.2.1
    let pends := prep.2.2.1
    let cache1 := prep.2.2.2
    if pends = [] then
      Except.ok (out, { st with cache := cache1 }, [])
    else
      let aiMessages := pends.map (fun p => p.message)
      match analyze aiMessages with
      | Except.error e => Except.error e
      | Except.ok results =>
        let ms := mergeLoop cfg now results pends
          { out := out, filled := filled, eng := st.eng, cache := cache1,
            persisted := st.persisted }
        match checkFilled ms.out ms.filled with
        | Except.error e => Except.error e
        | Except.ok vs =>
          Except.ok (vs, { eng := ms.eng, cache := ms.cache,
                           persisted := ms.persisted }, aiMessages)

/-! ## Dispatch (core listing: `record`, `dispatchByStatus`,
`eventNameFromCode`) -/

/-- The fixed callback surface of `interfaces.CallbackHandler`. -/
inductive Callback where
  | onClean
  | onNonCriticalAbuse
  | onSuspicious
  | onCommercialOffPlatform
  | onDangerousIllegal
  | onCritical
deriving DecidableEq, Repr

/-- Named events of the subscription bus. -/
inductive EventName where
  | allowClean
  | markAbuse
  | humanReview
  | autoRestrict
  | autoBanEscalate
  | criticalEscalate
deriving DecidableEq, Repr

/-- Embeds the `switch e.StatusCode` of `Core.dispatchByStatus` with Go
first-match semantics, in source case order: `StatusClean`,
`StatusNonCriticalAbuse`, `StatusSuspicious`, `StatusCommercialOffPlatform`,
`StatusDangerousIllegal`, `StatusCritical`.  Against the current constants
the last case repeats the value 6 (`StatusCritical` aliases
`StatusDangerousIllegal`) and the value 3 has no case, so no callback runs
for it. -/
def dispatchByStatus (code : Int) : Option Callback :=
  if code = statusClean then some Callback.onClean
  else if code = statusNonCriticalAbuse then some Callback.onNonCriticalAbuse
  else if code = statusSuspicious then some Callback.onSuspicious
  else if code = statusCommercialOffPlatform then some Callback.onCommercialOffPlatform
  else if code = statusDangerousIllegal then some Callback.onDangerousIllegal
  else if code = statusCritical then some Callback.onCritical
  else none

/-- Embeds `eventNameFromCode` (same switch shape; the default arm maps
unknown codes to `EventHumanReview`). -/
def eventNameFromCode (code : Int) : EventName :=
  if code = statusClean then EventName.allowClean
  else if code = statusNonCriticalAbuse then EventName.markAbuse
  else if code = statusSuspicious then EventName.humanReview
  else if code = statusCommercialOffPlatform then EventName.autoRestrict
  else if code = statusDangerousIllegal then EventName.autoBanEscalate
  else if code = statusCritical then EventName.criticalEscalate
  else EventName.humanReview

/-- Embeds `Core.record`: an invalid status is coerced to
`models.StatusSuspicious` before the metrics bump and the dispatch.
Returns the recorded code, the fixed callback chosen by
`dispatchByStatus` and the bus event chosen by `eventNameFromCode`. -/
def record (v : Violation) : Int × Option Callback × EventName :=
  let code := if statusValid v.aiResult.statusCode then v.aiResult.statusCode
              else statusSuspicious
  (code, dispatchByStatus code, eventNameFromCode code)

/-! ## JSON serialization (models/message.go `MarshalJSON` /
`UnmarshalJSON`; adapters/ai/deepseek.go `parseResults`)

JSON documents are modelled after textual decoding; `encoding/json`
numbers are `Rat` (Go's float64 encoder is value-preserving on round
trips).  A Go nil slice and an empty slice are identified, so the `d`
field is always emitted as an array. -/

/-- JSON values. -/
inductive Json where
  | null : Json
  | jbool : Bool → Json
  | num : Rat → Json
  | jstr : Str → Json
  | arr : List Json → Json
  | obj : List (Str × Json) → Json

/-- Object field lookup with `encoding/json` semantics: for a duplicated
key the last value wins. -/
def getField (fields : List (Str × Json)) (k : Str) : Option Json :=
  match fields with
  | [] => none
  | f :: rest =>
    match getField rest k with
    | some v => some v
    | none => if f.1 = k then some f.2 else none

/-- Decoding of a JSON value into an `int64` field: integral numbers only. -/
def asInt (v : Json) : Except String Int :=
  match v with
  | Json.num q => if q.den = 1 then Except.ok q.num else Except.error "json: not an integer"
  | _ => Except.error "json: not a number"

/-- Decoding of a JSON value into a `float64` field. -/
def asNum (v : Json) : Except String Rat :=
  match v with
  | Json.num q => Except.ok q
  | _ => Except.error "json: not a number"

/-- Decoding of a JSON value into a `string` field. -/
def asStr (v : Json) : Except String Str :=
  match v with
  | Json.jstr s => Except.ok s
  | _ => Except.error "json: not a string"

/-- Element-wise decoding of a JSON array of strings; the first failing
element aborts, as in `encoding/json`. -/
def mapMStr : List Json → Except String (List Str)
  | [] => Except.ok []
  | v :: rest =>
    match asStr v, mapMStr rest with
    | Except.ok s, Except.ok ss => Except.ok (s :: ss)
    | Except.error e, _ => Except.error e
    | _, Except.error e => Except.error e

/-- Decoding of a JSON value into a `[]string` field (`null` leaves the
slice empty). -/
def asStrList (v : Json) : Except String (List Str) :=
  match v with
  | Json.null => Except.ok []
  | Json.arr items => mapMStr items
  | _ => Except.error "json: not a string array"

/-- Decoding of an optional struct field: missing keys keep the zero
value. -/
def decodeField (fields : List (Str × Json)) (k : Str)
    (dec : Json → Except String α) (dflt : α) : Except String α :=
  match getField fields k with
  | none => Except.ok dflt
  | some v => dec v

/-- Embeds decoding into `aiResultAlias` (the full tag set). -/
def decodeFullAIResult (v : Json) : Except String AIResult :=
  match v with
  | Json.obj fields => do
    let status ← decodeField fields (str "status_code") asInt 0
    let reason ← decodeField fields (str "reason") asStr []
    let confidence ← decodeField fields (str "confidence") asNum 0
    let tokens ← decodeField fields (str "trigger_tokens") asStrList []
    let violator ← decodeField fields (str "violator_user_id") asInt 0
    let message ← decodeField fields (str "message_id") asInt 0
    Except.ok { statusCode := status, reason := reason, confidence := confidence,
                triggerTokens := tokens, violatorUserID := violator,
                messageID := message }
  | _ => Except.error "json: cannot unmarshal into struct"

/-- Embeds decoding into `aiCompact` (tags `a`..`f`). -/
def decodeCompactAIResult (v : Json) : Except String AIResult :=
  match v with
  | Json.obj fields => do
    let a ← decodeField fields (str "a") asInt 0
    let b ← decodeField fields (str "b") asStr []
    let c ← decodeField fields (str "c") asNum 0
    let d ← decodeField fields (str "d") asStrList []
    let e ← decodeField fields (str "e") asInt 0
    let f ← decodeField fields (str "f") asInt 0
    Except.ok { statusCode := a, reason := b, confidence := c,
                triggerTokens := d, violatorUserID := e, messageID := f }
  | _ => Except.error "json: cannot unmarshal into struct"

/-- Compact fallback of `AIResult.UnmarshalJSON`. -/
def unmarshalCompactFallback (v : Json) : Except String AIResult :=
  match decodeCompactAIResult v with
  | Except.ok r =>
    if r.statusCode ≠ 0 then Except.ok r
    else Except.error "models: unsupported AI result format"
  | Except.error _ => Except.error "models: unsupported AI result format"

/-- Embeds `AIResult.UnmarshalJSON`: try the full shape first and accept it
when its status is non-zero, otherwise fall back to the compact shape. -/
def unmarshalAIResult (v : Json) : Except String AIResult :=
  match decodeFullAIResult v with
  | Except.ok full =>
    if full.statusCode ≠ 0 then Except.ok full
    else unmarshalCompactFallback v
  | Except.error _ => unmarshalCompactFallback v

/-- Embeds `AIResult.MarshalJSON`: emit the compact `aiCompact` shape, with
`omitempty` on `e` and `f`. -/
def marshalAIResult (r : AIResult) : Json :=
  Json.obj
    ([(str "a", Json.num (r.statusCode : Rat)),
      (str "b", Json.jstr r.reason),
      (str "c", Json.num r.confidence),
      (str "d", Json.arr (r.triggerTokens.map Json.jstr))]
     ++ (if r.violatorUserID = 0 then []
         else [(str "e", Json.num (r.violatorUserID : Rat))])
     ++ (if r.messageID = 0 then []
         else [(str "f", Json.num (r.messageID : Rat))]))

/-- The compact field-letter key set. -/
def compactKeys : List Str :=
  [str "a", str "b", str "c", str "d", str "e", str "f"]

/-- A JSON document is in the compact field-letter shape when it is an
object all of whose keys are field letters. -/
def isCompactShape (v : Json) : Prop :=
  match v with
  | Json.obj fields => ∀ f ∈ fields, f.1 ∈ compactKeys
  | _ => False

/-- Coercion applied by `parseResults` to every decoded result: an invalid
status becomes `models.StatusHumanReview`. -/
def coerceParsedStatus (r : AIResult) : AIResult :=
  if ¬ statusValid r.statusCode
  then { r with statusCode := statusHumanReview } else r

/-- Element-wise decoding of the array shape of an AI response. -/
def mapMResults : List Json → Except String (List AIResult)
  | [] => Except.ok []
  | v :: rest =>
    match unmarshalAIResult v, mapMResults rest with
    | Except.ok r, Except.ok rs => Except.ok (r :: rs)
    | Except.error e, _ => Except.error e
    | _, Except.error e => Except.error e

/-- Embeds `parseResults` after textual decoding: an array input decodes
every element, a single object decodes one result; each decoded result's
invalid status is coerced to `StatusHumanReview`. -/
def parseResults (v : Json) : Except String (List AIResult) :=
  match v with
  | Json.arr items => do
    let rs ← mapMResults items
    Except.ok (rs.map coerceParsedStatus)
  | other => do
    let r ← unmarshalAIResult other
    Except.ok [coerceParsedStatus r]

/-! ## Engine lemmas -/

/-- Membership in the set-insertion fold used by `findTriggers`: the fold
adds exactly the elements of the scanned list that satisfy the condition. -/
theorem mem_foldl_insert (cond : Str → Prop) [DecidablePred cond]
    (l : List Str) (acc : List Str) (x : Str) :
    (x ∈ l.foldl (fun a p => if p ∉ a ∧ cond p then a ++ [p] else a) acc) ↔
      x ∈ acc ∨ (x ∈ l ∧ cond x) := by
  induction l generalizing acc with
  | nil => simp
  | cons t rest ih =>
    rw [List.foldl_cons, ih]
    by_cases h1 : t ∈ acc <;> by_cases h2 : cond t <;>
      by_cases h3 : x = t <;>
      simp [h1, h2, h3]

/-- The set-insertion fold keeps the accumulator duplicate-free. -/
theorem nodup_foldl_insert (cond : Str → Prop) [DecidablePred cond]
    (l : List Str) (acc : List Str) (h : acc.Nodup) :
    (l.foldl (fun a p => if p ∉ a ∧ cond p then a ++ [p] else a) acc).Nodup := by
  induction l generalizing acc with
  | nil => exact h
  | cons t rest ih =>
    rw [List.foldl_cons]
    split
    case isTrue ht =>
      refine ih _ ((List.nodup_append).mpr ⟨h, List.nodup_singleton t, ?_⟩)
      intro a ha hat
      rw [List.mem_singleton] at hat
      exact ht.1 (hat ▸ ha)
    case isFalse => exact ih _ h

/-- Membership characterization of `findTriggers`, straight from the two
passes: the result holds the word-run matches and the phrase substring
matches, guarded by the non-empty checks. -/
theorem mem_findTriggers (e : EngineState) (message x : Str) :
    x ∈ findTriggers e message ↔
      (e.tokens ≠ [] ∧ toLowerStr message ≠ [] ∧
       ((x ∈ splitTokens (toLowerStr message) ∧ x ∈ e.tokens) ∨
        (x ∈ e.phrases ∧ x <:+: toLowerStr message))) := by
  unfold findTriggers
  by_cases hg : e.tokens = [] ∨ toLowerStr message = []
  · simp only [hg, if_pos]
    simp only [List.not_mem_nil, false_iff]
    push_neg
    intro h1 h2
    exact absurd hg (by push_neg; exact ⟨h1, h2⟩)
  · simp only [hg, if_neg, if_false]
    push_neg at hg
    rw [mem_foldl_insert (fun p => p <:+: toLowerStr message),
        mem_foldl_insert (fun p => p ∈ e.tokens)]
    simp only [List.not_mem_nil, false_or]
    constructor
    · rintro (⟨hs, ht⟩ | ⟨hp, hinf⟩)
      · exact ⟨hg.1, hg.2, Or.inl ⟨hs, ht⟩⟩
      · exact ⟨hg.1, hg.2, Or.inr ⟨hp, hinf⟩⟩
    · rintro ⟨_, _, (⟨hs, ht⟩ | ⟨hp, hinf⟩)⟩
      · exact Or.inl ⟨hs, ht⟩
      · exact Or.inr ⟨hp, hinf⟩

/-- The output of `findTriggers` has no duplicates. -/
theorem findTriggers_nodup (e : EngineState) (message : Str) :
    (findTriggers e message).Nodup := by
  unfold findTriggers
  by_cases hg : e.tokens = [] ∨ toLowerStr message = []
  · simp [hg]
  · simp only [hg, if_neg, if_false]
    exact nodup_foldl_insert (fun p => p <:+: toLowerStr message) _ _
      (nodup_foldl_insert (fun p => p ∈ e.tokens) _ _ List.nodup_nil)

/-- Every run produced by `splitTokens` consists of word characters only. -/
theorem splitTokensGo_word (s cur : Str) (hcur : ∀ c ∈ cur, isWordChar c = true) :
    ∀ t ∈ splitTokensGo s cur, ∀ c ∈ t, isWordChar c = true := by
  induction s generalizing cur with
  | nil =>
    intro t ht
    simp only [splitTokensGo] at ht
    split at ht
    · simp at ht
    · rw [List.mem_singleton] at ht
      exact ht ▸ hcur
  | cons c0 rest ih =>
    intro t ht
    simp only [splitTokensGo] at ht
    by_cases hw : isWordChar c0
    · rw [if_pos hw] at ht
      refine ih (cur ++ [c0]) ?_ t ht
      intro c hc
      rcases List.mem_append.mp hc with h | h
      · exact hcur c h
      · rw [List.mem_singleton] at h
        exact h ▸ hw
    · rw [if_neg hw] at ht
      by_cases h0 : cur = []
      · rw [if_pos h0] at ht
        exact ih [] (by simp) t ht
      · rw [if_neg h0] at ht
        rcases List.mem_cons.mp ht with h | h
        · exact h ▸ hcur
        · exact ih [] (by simp) t h

theorem splitTokens_word (s : Str) :
    ∀ t ∈ splitTokens s, ∀ c ∈ t, isWordChar c = true :=
  splitTokensGo_word s [] (by simp)

/-- Monotonicity of `findTriggers` in the engine state: growing the token
set and the phrase list can only grow the trigger set. -/
theorem findTriggers_mono (e e' : EngineState) (message : Str)
    (htok : ∀ t ∈ e.tokens, t ∈ e'.tokens)
    (hph : ∀ p ∈ e.phrases, p ∈ e'.phrases) :
    ∀ x ∈ findTriggers e message, x ∈ findTriggers e' message := by
  intro x hx
  rw [mem_findTriggers] at hx ⊢
  obtain ⟨h1, h2, h3⟩ := hx
  refine ⟨?_, h2, ?_⟩
  · obtain ⟨t, ht⟩ := List.exists_mem_of_ne_nil _ h1
    exact List.ne_nil_of_mem (htok t ht)
  · rcases h3 with ⟨hs, ht⟩ | ⟨hp, hinf⟩
    · exact Or.inl ⟨hs, htok x ht⟩
    · exact Or.inr ⟨hph x hp, hinf⟩

/-- The empty engine is well-formed. -/
theorem engineWF_empty : EngineWF EngineState.empty := by
  refine ⟨List.nodup_nil, List.nodup_nil, ?_⟩
  intro p
  simp [EngineState.empty]

/-- `AddToken` preserves engine well-formedness. -/
theorem engineWF_addToken (e : EngineState) (h : EngineWF e) (token : Str) :
    EngineWF (addToken e token).1 := by
  obtain ⟨hnd, hpnd, hiff⟩ := h
  unfold addToken
  by_cases h0 : normalizeToken token = []
  · simpa [h0] using ⟨hnd, hpnd, hiff⟩
  · by_cases h1 : normalizeToken token ∈ e.tokens
    · simpa [h0, h1] using ⟨hnd, hpnd, hiff⟩
    · simp only [h0, h1, if_neg, if_false]
      set t := normalizeToken token with ht
      refine ⟨?_, ?_, ?_⟩
      · simp only [List.nodup_append, List.nodup_singleton]
        refine ⟨hnd, trivial, ?_⟩
        intro a ha hat
        rw [List.mem_singleton] at hat
        exact h1 (hat ▸ ha)
      · by_cases hsp : ' ' ∈ t
        · simp only [hsp, if_pos]
          simp only [List.nodup_append, List.nodup_singleton]
          refine ⟨hpnd, trivial, ?_⟩
          intro a ha hat
          rw [List.mem_singleton] at hat
          exact h1 (hat ▸ ((hiff a).mp ha).1)
        · simpa [hsp] using hpnd
      · intro p
        by_cases hsp : ' ' ∈ t
        · simp only [hsp, if_pos, List.mem_append, List.mem_singleton]
          rw [hiff p]
          constructor
          · rintro (⟨hpt, hs⟩ | rfl)
            · exact ⟨Or.inl hpt, hs⟩
            · exact ⟨Or.inr rfl, hsp⟩
          · rintro ⟨hpt | rfl, hs⟩
            · exact Or.inl ⟨hpt, hs⟩
            · exact Or.inr rfl
        · simp only [hsp, if_neg, if_false, List.mem_append, List.mem_singleton]
          rw [hiff p]
          constructor
          · rintro ⟨hpt, hs⟩
            exact ⟨Or.inl hpt, hs⟩
          · rintro ⟨hpt | rfl, hs⟩
            · exact ⟨hpt, hs⟩
            · exact absurd hs hsp

/-- `AddToken` only grows the token set. -/
theorem addToken_tokens_mono (e : EngineState) (token : Str) :
    ∀ x ∈ e.tokens, x ∈ (addToken e token).1.tokens := by
  intro x hx
  unfold addToken
  by_cases h0 : normalizeToken token = [] <;> by_cases h1 : normalizeToken token ∈ e.tokens <;>
    simp [h0, h1, hx]

/-- `AddToken` only grows the phrase list. -/
theorem addToken_phrases_mono (e : EngineState) (token : Str) :
    ∀ x ∈ e.phrases, x ∈ (addToken e token).1.phrases := by
  intro x hx
  unfold addToken
  by_cases h0 : normalizeToken token = [] <;> by_cases h1 : normalizeToken token ∈ e.tokens <;>
    by_cases h2 : ' ' ∈ normalizeToken token <;> simp [h0, h1, h2, hx]

/-- `Core.learn`'s per-token step only grows the engine. -/
theorem learnToken_engine_mono (cfg : CoreConfig) (acc : EngineState × List Str)
    (t : Str) :
    (∀ x ∈ acc.1.tokens, x ∈ (learnToken cfg acc t).1.tokens) ∧
    (∀ x ∈ acc.1.phrases, x ∈ (learnToken cfg acc t).1.phrases) := by
  simp only [learnToken]
  by_cases h0 : toLowerStr (trimSpace t) = []
  · rw [if_pos h0]
    exact ⟨fun x hx => hx, fun x hx => hx⟩
  · rw [if_neg h0]
    by_cases h1 : ((toLowerStr (trimSpace t)).length : Int) > cfg.maxLearnTokenLength
    · rw [if_pos h1]
      exact ⟨fun x hx => hx, fun x hx => hx⟩
    · rw [if_neg h1]
      by_cases h2 : (addToken acc.1 (toLowerStr (trimSpace t))).2 = true
      · rw [if_pos h2]
        exact ⟨fun x hx => addToken_tokens_mono _ _ x hx,
               fun x hx => addToken_phrases_mono _ _ x hx⟩
      · rw [if_neg h2]
        exact ⟨fun x hx => addToken_tokens_mono _ _ x hx,
               fun x hx => addToken_phrases_mono _ _ x hx⟩

/-- `Core.learn` only grows the engine's token set and phrase list. -/
theorem learn_engine_mono (cfg : CoreConfig) (e : EngineState) (r : AIResult) :
    (∀ x ∈ e.tokens, x ∈ (learn cfg e r).1.tokens) ∧
    (∀ x ∈ e.phrases, x ∈ (learn cfg e r).1.phrases) := by
  unfold learn
  split
  · exact ⟨fun x hx => hx, fun x hx => hx⟩
  · split
    · exact ⟨fun x hx => hx, fun x hx => hx⟩
    · generalize r.triggerTokens = toks
      have hstep : ∀ (acc : EngineState × List Str),
          ((∀ x ∈ e.tokens, x ∈ acc.1.tokens) ∧ (∀ x ∈ e.phrases, x ∈ acc.1.phrases)) →
          (∀ x ∈ e.tokens, x ∈ (toks.foldl (learnToken cfg) acc).1.tokens) ∧
          (∀ x ∈ e.phrases, x ∈ (toks.foldl (learnToken cfg) acc).1.phrases) := by
        induction toks with
        | nil => exact fun acc h => h
        | cons t rest ih =>
          intro acc h
          rw [List.foldl_cons]
          refine ih _ ⟨?_, ?_⟩
          · exact fun x hx => (learnToken_engine_mono cfg acc t).1 x (h.1 x hx)
          · exact fun x hx => (learnToken_engine_mono cfg acc t).2 x (h.2 x hx)
      exact hstep _ ⟨fun x hx => hx, fun x hx => hx⟩

/-- C8: for every well-formed token set and every text, `FindTriggers`
returns exactly the union of (a) the stored tokens equal to some maximal
run of word characters in the lowercased text and (b) the stored phrases
occurring as substrings of the lowercased text, with no duplicates;
matching happens on the lowercased text, and empty text or an empty token
set yields the empty result. -/
theorem findTriggers_exact (e : EngineState) (hwf : EngineWF e) (message : Str) :
    (findTriggers e message).Nodup ∧
    (∀ x, x ∈ findTriggers e message ↔
      ((x ∈ e.tokens ∧ x ∈ splitTokens (toLowerStr message)) ∨
       (x ∈ e.phrases ∧ x <:+: toLowerStr message))) ∧
    ((message = [] ∨ e.tokens = []) → findTriggers e message = []) := by
  obtain ⟨hnd, hpnd, hiff⟩ := hwf
  have hmem : ∀ x, x ∈ findTriggers e message ↔
      ((x ∈ e.tokens ∧ x ∈ splitTokens (toLowerStr message)) ∨
       (x ∈ e.phrases ∧ x <:+: toLowerStr message)) := by
    intro x
    rw [mem_findTriggers]
    constructor
    · rintro ⟨_, _, (⟨hs, ht⟩ | hp)⟩
      · exact Or.inl ⟨ht, hs⟩
      · exact Or.inr hp
    · rintro (⟨ht, hs⟩ | ⟨hp, hinf⟩)
      · refine ⟨List.ne_nil_of_mem ht, ?_, Or.inl ⟨hs, ht⟩⟩
        intro hlow
        rw [hlow] at hs
        simp [splitTokens, splitTokensGo] at hs
      · have hx := (hiff x).mp hp
        refine ⟨List.ne_nil_of_mem hx.1, ?_, Or.inr ⟨hp, hinf⟩⟩
        intro hlow
        rw [hlow] at hinf
        rw [List.infix_nil] at hinf
        exact List.not_mem_nil ' ' (hinf ▸ hx.2)
  refine ⟨findTriggers_nodup e message, hmem, ?_⟩
  intro hemp
  rw [List.eq_nil_iff_forall_not_mem]
  intro x hx
  rcases (hmem x).mp hx with ⟨ht, hs⟩ | ⟨hp, hinf⟩
  · rcases hemp with h | h
    · rw [h] at hs
      simp [toLowerStr, splitTokens, splitTokensGo] at hs
    · rw [h] at ht
      exact List.not_mem_nil x ht
  · rcases hemp with h | h
    · rw [h] at hinf
      have : toLowerStr [] = ([] : Str) := rfl
      rw [this, List.infix_nil] at hinf
      exact List.not_mem_nil ' ' (hinf ▸ ((hiff x).mp hp).2)
    · exact List.not_mem_nil x (h ▸ ((hiff x).mp hp).1)

/-- A mixed-case engine built through `AddToken`, for the C8 witness. -/
def engineBadBuyNow : EngineState :=
  (addToken (addToken EngineState.empty (str "BaD")).1 (str "buy now")).1

/-- Witness for C8 at a concrete engine and an all-uppercase text: the
token stored from mixed-case `"BaD"` is found, establishing the union
characterization at a concrete input. -/
theorem findTriggers_exact_witness :
    str "bad" ∈ findTriggers engineBadBuyNow (str "This is BAD. Please BUY NOW!") ∧
    str "buy now" ∈ findTriggers engineBadBuyNow (str "This is BAD. Please BUY NOW!") := by
  have hwf : EngineWF engineBadBuyNow :=
    engineWF_addToken _ (engineWF_addToken _ engineWF_empty _) _
  obtain ⟨-, hmem, -⟩ :=
    findTriggers_exact engineBadBuyNow hwf (str "This is BAD. Please BUY NOW!")
  constructor
  · exact (hmem (str "bad")).mpr (Or.inl (by constructor <;> decide))
  · exact (hmem (str "buy now")).mpr (Or.inr (by constructor <;> decide))

/-- C10: a stored token containing no space but some non-word character is
unreachable: `FindTriggers` never returns it, for any input text. -/
theorem nonword_token_unreachable (e : EngineState) (hwf : EngineWF e)
    (tok : Str) (hnospace : ' ' ∉ tok) (c : Char) (hc : c ∈ tok)
    (hbad : isWordChar c = false) (message : Str) :
    tok ∉ findTriggers e message := by
  intro hmem
  rcases (mem_findTriggers e message tok).mp hmem with ⟨_, _, h⟩
  rcases h with ⟨hs, _⟩ | ⟨hp, _⟩
  · have := splitTokens_word (toLowerStr message) tok hs c hc
    rw [this] at hbad
    simp at hbad
  · exact hnospace ((hwf.2.2 tok).mp hp).2

/-- An engine holding the token `"c++"`, for the C10 witness. -/
def engineCpp : EngineState := (addToken EngineState.empty (str "c++")).1

/-- Witness for C10: the stored token `"c++"` is never returned, shown at a
text that spells it out verbatim. -/
theorem nonword_token_unreachable_witness :
    str "c++" ∉ findTriggers engineCpp (str "i write c++ every day") :=
  nonword_token_unreachable engineCpp
    (engineWF_addToken _ engineWF_empty _)
    (str "c++") (by decide) '+' (by decide) (by decide)
    (str "i write c++ every day")

/-! ## Cache lemmas -/

theorem estimate_nonneg (key : Str) (value : AIResult) :
    0 ≤ estimateEntrySizeBytes key value := by
  unfold estimateEntrySizeBytes
  have h3 : (0:Int) ≤ ((value.triggerTokens.map (fun t => (t.length : Int))).sum) := by
    have hs := List.Sublist.sum_le_sum
      (List.nil_sublist (value.triggerTokens.map (fun t => (t.length : Int))))
      (fun a ha => by
        obtain ⟨t, -, rfl⟩ := List.mem_map.mp ha
        exact Int.natCast_nonneg _)
    simpa using hs
  have h1 : (0:Int) ≤ (key.length : Int) := Int.natCast_nonneg _
  have h2 : (0:Int) ≤ (value.reason.length : Int) := Int.natCast_nonneg _
  omega

theorem findEntry_key (k : Str) (l : List NegCacheEntry) (e : NegCacheEntry)
    (h : findEntry k l = some e) : e.key = k := by
  induction l with
  | nil => simp [findEntry] at h
  | cons x rest ih =>
    simp only [findEntry] at h
    by_cases hx : x.key = k
    · rw [if_pos hx] at h
      injection h with h1
      exact h1 ▸ hx
    · rw [if_neg hx] at h
      exact ih h

theorem findEntry_perm (k : Str) (l : List NegCacheEntry) (e : NegCacheEntry)
    (h : findEntry k l = some e) : l.Perm (e :: eraseKey k l) := by
  induction l with
  | nil => simp [findEntry] at h
  | cons x rest ih =>
    simp only [findEntry] at h
    by_cases hx : x.key = k
    · rw [if_pos hx] at h
      injection h with h1
      subst h1
      simp only [eraseKey, if_pos hx]
      exact List.Perm.refl _
    · rw [if_neg hx] at h
      simp only [eraseKey, if_neg hx]
      exact ((ih h).cons x).trans (List.Perm.swap e x _)

theorem findEntry_none (k : Str) (l : List NegCacheEntry)
    (h : findEntry k l = none) : ∀ e ∈ l, e.key ≠ k := by
  induction l with
  | nil => simp
  | cons x rest ih =>
    simp only [findEntry] at h
    by_cases hx : x.key = k
    · rw [if_pos hx] at h
      cases h
    · rw [if_neg hx] at h
      intro e he
      rcases List.mem_cons.mp he with rfl | he
      · exact hx
      · exact ih h e he

theorem eraseKey_key_not_mem (k : Str) (l : List NegCacheEntry)
    (hnd : (l.map (fun e => e.key)).Nodup) (e : NegCacheEntry)
    (h : findEntry k l = some e) :
    k ∉ (eraseKey k l).map (fun e => e.key) := by
  have hperm := (findEntry_perm k l e h).map (fun e => e.key)
  rw [List.map_cons, findEntry_key k l e h] at hperm
  exact (List.nodup_cons.mp (hperm.nodup hnd)).1

theorem getLast?_eq_none_imp {α : Type} (l : List α) (h : l.getLast? = none) :
    l = [] := by
  cases l with
  | nil => rfl
  | cons a as =>
    rw [List.getLast?_eq_getLast_of_ne_nil (List.cons_ne_nil a as)] at h
    cases h

theorem evictLoop_sizeInv (fuel : Nat) :
    ∀ (c : NegCache), c.accounted → c.entries.length ≤ fuel →
    (evictLoop fuel c).sizeInv ∧ (evictLoop fuel c).maxBytes = c.maxBytes := by
  induction fuel with
  | zero =>
    intro c hacc hlen
    have hnil : c.entries = [] := List.length_eq_zero.mp (Nat.le_zero.mp hlen)
    obtain ⟨hmax, hsum, hnn, hnd⟩ := hacc
    have htot : c.totalBytes = 0 := by
      rw [hsum, hnil]
      simp
    exact ⟨⟨⟨hmax, hsum, hnn, hnd⟩,
      by show c.totalBytes ≤ c.maxBytes; omega⟩, rfl⟩
  | succ fuel ih =>
    intro c hacc hlen
    obtain ⟨hmax, hsum, hnn, hnd⟩ := hacc
    simp only [evictLoop]
    split
    case h_1 hlast =>
      have hnil := getLast?_eq_none_imp _ hlast
      have htot : c.totalBytes = 0 := by
        rw [hsum, hnil]
        simp
      exact ⟨⟨⟨hmax, hsum, hnn, hnd⟩, by omega⟩, rfl⟩
    case h_2 last hlast =>
      have happ : c.entries.dropLast ++ [last] = c.entries :=
        List.dropLast_append_getLast? last hlast
      have hsumsplit : (c.entries.map (fun e => e.sizeBytes)).sum =
          (c.entries.dropLast.map (fun e => e.sizeBytes)).sum + last.sizeBytes := by
        conv_lhs => rw [← happ]
        simp
      have hsub : List.Sublist c.entries.dropLast c.entries := by
        have h0 := List.sublist_append_left c.entries.dropLast [last]
        rw [happ] at h0
        exact h0
      have hmemDL : ∀ e ∈ c.entries.dropLast, e ∈ c.entries :=
        fun e he => hsub.mem he
      have hDLsum_nonneg : (0:Int) ≤ (c.entries.dropLast.map (fun e => e.sizeBytes)).sum := by
        have hs := List.Sublist.sum_le_sum
          (List.nil_sublist (c.entries.dropLast.map (fun e => e.sizeBytes)))
          (fun a ha => by
            obtain ⟨t, ht, rfl⟩ := List.mem_map.mp ha
            exact hnn t (hmemDL t ht))
        simpa using hs
      split
      case isTrue hgt =>
        have hclamp : clampZero (c.totalBytes - last.sizeBytes) =
            (c.entries.dropLast.map (fun e => e.sizeBytes)).sum := by
          rw [hsum, hsumsplit]
          unfold clampZero
          rw [if_neg (by omega)]
          omega
        have hmapDL : (c.entries.dropLast.map (fun e => e.key)).Nodup :=
          (hsub.map (fun e => e.key)).nodup hnd
        have hne : c.entries ≠ [] := by
          intro hn
          rw [hn] at hlast
          cases hlast
        have hlen' : c.entries.dropLast.length ≤ fuel := by
          simp only [List.length_dropLast]
          have := List.length_pos.mpr hne
          omega
        exact ih
          { c with entries := c.entries.dropLast,
                   totalBytes := clampZero (c.totalBytes - last.sizeBytes) }
          ⟨hmax, by simpa using hclamp, fun e he => hnn e (hmemDL e he), hmapDL⟩
          hlen'
      case isFalse hle =>
        exact ⟨⟨⟨hmax, hsum, hnn, hnd⟩, by omega⟩, rfl⟩

theorem evictToFit_sizeInv (c : NegCache) (hacc : c.accounted) :
    (c.evictToFit).sizeInv ∧ (c.evictToFit).maxBytes = c.maxBytes :=
  evictLoop_sizeInv c.entries.length c hacc (le_refl _)

/-- A cache already within budget is untouched by the eviction loop. -/
theorem evictToFit_of_le (c : NegCache) (h : c.totalBytes ≤ c.maxBytes) :
    c.evictToFit = c := by
  unfold NegCache.evictToFit
  cases hc : c.entries with
  | nil => rfl
  | cons a as =>
    simp only [List.length_cons, evictLoop]
    split
    · rfl
    · rw [if_neg (by omega)]

/-- `Get` preserves the size-accounting invariant. -/
theorem get_sizeInv (c : NegCache) (h : c.sizeInv) (key : Str) (now : Int) :
    ((c.get key now).2).sizeInv := by
  obtain ⟨⟨hmax, hsum, hnn, hnd⟩, hle⟩ := h
  unfold NegCache.get
  by_cases hk : key = []
  · rw [if_pos hk]
    exact ⟨⟨hmax, hsum, hnn, hnd⟩, hle⟩
  · rw [if_neg hk]
    cases hfind : findEntry key c.entries with
    | none => exact ⟨⟨hmax, hsum, hnn, hnd⟩, hle⟩
    | some e =>
      have hperm := findEntry_perm key c.entries e hfind
      have hsumperm := (hperm.map (fun e => e.sizeBytes)).sum_eq
      rw [List.map_cons, List.sum_cons] at hsumperm
      have hmemerase : ∀ x ∈ eraseKey key c.entries, x ∈ c.entries :=
        fun x hx => hperm.mem_iff.mpr (List.mem_cons_of_mem e hx)
      have herasenn : (0:Int) ≤ ((eraseKey key c.entries).map (fun e => e.sizeBytes)).sum := by
        have hs := List.Sublist.sum_le_sum
          (List.nil_sublist ((eraseKey key c.entries).map (fun e => e.sizeBytes)))
          (fun a ha => by
            obtain ⟨t, ht, rfl⟩ := List.mem_map.mp ha
            exact hnn t (hmemerase t ht))
        simpa using hs
      have hndperm := (hperm.map (fun e => e.key)).nodup hnd
      rw [List.map_cons] at hndperm
      show (if now > e.expiresAt then
          ((none : Option AIResult),
           ({ maxBytes := c.maxBytes,
              totalBytes := clampZero (c.totalBytes - e.sizeBytes),
              entries := eraseKey key c.entries } : NegCache))
        else
          (some e.value,
           ({ maxBytes := c.maxBytes, totalBytes := c.totalBytes,
              entries := e :: eraseKey key c.entries } : NegCache))).2.sizeInv
      by_cases hexp : now > e.expiresAt
      · rw [if_pos hexp]
        refine ⟨⟨hmax, ?_, ?_, ?_⟩, ?_⟩
        · show clampZero (c.totalBytes - e.sizeBytes) =
            ((eraseKey key c.entries).map (fun e => e.sizeBytes)).sum
          unfold clampZero
          rw [if_neg (by omega)]
          omega
        · exact fun x hx => hnn x (hmemerase x hx)
        · exact (List.nodup_cons.mp hndperm).2
        · show clampZero (c.totalBytes - e.sizeBytes) ≤ c.maxBytes
          unfold clampZero
          have hse : 0 ≤ e.sizeBytes := hnn e (hperm.mem_iff.mpr (List.mem_cons_self e _))
          split <;> omega
      · rw [if_neg hexp]
        refine ⟨⟨hmax, ?_, ?_, ?_⟩, hle⟩
        · show c.totalBytes =
            ((e :: eraseKey key c.entries).map (fun e => e.sizeBytes)).sum
          simp only [List.map_cons, List.sum_cons]
          omega
        · intro x hx
          rcases List.mem_cons.mp hx with rfl | hx
          · exact hnn x (hperm.mem_iff.mpr (List.mem_cons_self x _))
          · exact hnn x (hmemerase x hx)
        · rw [List.map_cons]
          exact hndperm

/-- `Set` preserves the size-accounting invariant, and an entry larger than
the byte budget is never inserted. -/
theorem set_sizeInv (c : NegCache) (h : c.sizeInv) (key : Str)
    (value : AIResult) (ttl now : Int) :
    ((c.set key value ttl now).sizeInv) ∧
    (estimateEntrySizeBytes key value > c.maxBytes → c.set key value ttl now = c) := by
  obtain ⟨⟨hmax, hsum, hnn, hnd⟩, hle⟩ := h
  unfold NegCache.set
  by_cases hg : key = [] ∨ ttl ≤ 0
  · rw [if_pos hg]
    exact ⟨⟨⟨hmax, hsum, hnn, hnd⟩, hle⟩, fun _ => rfl⟩
  · rw [if_neg hg]
    by_cases hbig : estimateEntrySizeBytes key value > c.maxBytes
    · rw [if_pos hbig]
      exact ⟨⟨⟨hmax, hsum, hnn, hnd⟩, hle⟩, fun _ => rfl⟩
    · rw [if_neg hbig]
      have hsz := estimate_nonneg key value
      refine ⟨?_, fun hcontra => absurd hcontra hbig⟩
      cases hfind : findEntry key c.entries with
      | none =>
        have hnotmem : key ∉ (c.entries.map (fun e => e.key)) := by
          intro hk
          obtain ⟨x, hx, hkx⟩ := List.mem_map.mp hk
          exact findEntry_none key c.entries hfind x hx hkx
        show ({ maxBytes := c.maxBytes,
                totalBytes := c.totalBytes + estimateEntrySizeBytes key value,
                entries :=
                  { key := key, value := value, expiresAt := now + ttl,
                    sizeBytes := estimateEntrySizeBytes key value } ::
                  c.entries } : NegCache).evictToFit.sizeInv
        refine (evictToFit_sizeInv _ ⟨?_, ?_, ?_, ?_⟩).1
        · exact hmax
        · show c.totalBytes + estimateEntrySizeBytes key value =
            ((({ key := key, value := value, expiresAt := now + ttl,
                 sizeBytes := estimateEntrySizeBytes key value } : NegCacheEntry) ::
              c.entries).map (fun e => e.sizeBytes)).sum
          simp only [List.map_cons, List.sum_cons]
          omega
        · intro x hx
          rcases List.mem_cons.mp hx with rfl | hx
          · exact hsz
          · exact hnn x hx
        · rw [List.map_cons]
          exact List.nodup_cons.mpr ⟨hnotmem, hnd⟩
      | some old =>
        have hperm := findEntry_perm key c.entries old hfind
        have hsumperm := (hperm.map (fun e => e.sizeBytes)).sum_eq
        rw [List.map_cons, List.sum_cons] at hsumperm
        have hmemerase : ∀ x ∈ eraseKey key c.entries, x ∈ c.entries :=
          fun x hx => hperm.mem_iff.mpr (List.mem_cons_of_mem old hx)
        have hndperm := (hperm.map (fun e => e.key)).nodup hnd
        rw [List.map_cons] at hndperm
        show ({ maxBytes := c.maxBytes,
                totalBytes := c.totalBytes - old.sizeBytes + estimateEntrySizeBytes key value,
                entries :=
                  { key := key, value := value, expiresAt := now + ttl,
                    sizeBytes := estimateEntrySizeBytes key value } ::
                  eraseKey key c.entries } : NegCache).evictToFit.sizeInv
        refine (evictToFit_sizeInv _ ⟨?_, ?_, ?_, ?_⟩).1
        · exact hmax
        · show c.totalBytes - old.sizeBytes + estimateEntrySizeBytes key value =
            ((({ key := key, value := value, expiresAt := now + ttl,
                 sizeBytes := estimateEntrySizeBytes key value } : NegCacheEntry) ::
              eraseKey key c.entries).map (fun e => e.sizeBytes)).sum
          simp only [List.map_cons, List.sum_cons]
          omega
        · intro x hx
          rcases List.mem_cons.mp hx with rfl | hx
          · exact hsz
          · exact hnn x (hmemerase x hx)
        · rw [List.map_cons]
          refine List.nodup_cons.mpr ⟨?_, (List.nodup_cons.mp hndperm).2⟩
          exact eraseKey_key_not_mem key c.entries hnd old hfind

/-- `RemoveExpired` preserves the size-accounting invariant. -/
theorem removeExpired_sizeInv (c : NegCache) (h : c.sizeInv) (now : Int) :
    ((c.removeExpired now).sizeInv) := by
  obtain ⟨⟨hmax, hsum, hnn, hnd⟩, hle⟩ := h
  have hfold : ∀ (l : List NegCacheEntry), (∀ e ∈ l, 0 ≤ e.sizeBytes) → ∀ (d : Int), 0 ≤ d →
      l.foldr
        (fun e acc =>
          if now > e.expiresAt then (acc.1, clampZero (acc.2 - e.sizeBytes))
          else (e :: acc.1, acc.2))
        ([], (l.map (fun e => e.sizeBytes)).sum + d) =
      (l.filter (fun e => ¬ now > e.expiresAt),
       ((l.filter (fun e => ¬ now > e.expiresAt)).map (fun e => e.sizeBytes)).sum + d) := by
    intro l
    induction l with
    | nil => intro _ d _; simp
    | cons e rest ih =>
      intro hnl d hd
      have hnr : ∀ x ∈ rest, 0 ≤ x.sizeBytes := fun x hx => hnl x (List.mem_cons_of_mem e hx)
      have hre : 0 ≤ e.sizeBytes := hnl e (List.mem_cons_self e rest)
      have hfsum : (0:Int) ≤ ((rest.filter (fun e => ¬ now > e.expiresAt)).map
          (fun e => e.sizeBytes)).sum := by
        have hs := List.Sublist.sum_le_sum
          (List.nil_sublist ((rest.filter (fun e => ¬ now > e.expiresAt)).map
            (fun e => e.sizeBytes)))
          (fun a ha => by
            obtain ⟨t, ht, rfl⟩ := List.mem_map.mp ha
            exact hnr t (List.mem_of_mem_filter ht))
        simpa using hs
      rw [List.foldr_cons]
      have harith : (List.map (fun e => e.sizeBytes) (e :: rest)).sum + d =
          (List.map (fun e => e.sizeBytes) rest).sum + (e.sizeBytes + d) := by
        rw [List.map_cons, List.sum_cons]
        omega
      rw [harith, ih hnr (e.sizeBytes + d) (by omega)]
      by_cases hexp : now > e.expiresAt
      · rw [if_pos hexp]
        have hfe : (e :: rest).filter (fun e => ¬ now > e.expiresAt) =
            rest.filter (fun e => ¬ now > e.expiresAt) := by
          rw [List.filter_cons]
          simp [hexp]
        rw [hfe]
        refine Prod.ext rfl ?_
        show clampZero _ = _
        unfold clampZero
        rw [if_neg (by omega)]
        omega
      · rw [if_neg hexp]
        have hfe : (e :: rest).filter (fun e => ¬ now > e.expiresAt) =
            e :: rest.filter (fun e => ¬ now > e.expiresAt) := by
          rw [List.filter_cons]
          simp [hexp]
        rw [hfe]
        refine Prod.ext rfl ?_
        show _ = _
        rw [List.map_cons, List.sum_cons]
        omega
  have h0 : c.totalBytes = (c.entries.map (fun e => e.sizeBytes)).sum + 0 := by omega
  have heq : c.removeExpired now =
      { maxBytes := c.maxBytes,
        totalBytes := ((c.entries.filter (fun e => ¬ now > e.expiresAt)).map
          (fun e => e.sizeBytes)).sum + 0,
        entries := c.entries.filter (fun e => ¬ now > e.expiresAt) } := by
    unfold NegCache.removeExpired
    rw [h0, hfold c.entries hnn 0 (le_refl _)]
  rw [heq]
  have hsubf : List.Sublist (c.entries.filter (fun e => ¬ now > e.expiresAt)) c.entries :=
    List.filter_sublist _
  refine ⟨⟨hmax, ?_, ?_, ?_⟩, ?_⟩
  · show ((c.entries.filter (fun e => ¬ now > e.expiresAt)).map
      (fun e => e.sizeBytes)).sum + 0 =
      ((c.entries.filter (fun e => ¬ now > e.expiresAt)).map
        (fun e => e.sizeBytes)).sum
    omega
  · exact fun x hx => hnn x (List.mem_of_mem_filter hx)
  · exact (hsubf.map (fun e => e.key)).nodup hnd
  · show ((c.entries.filter (fun e => ¬ now > e.expiresAt)).map
      (fun e => e.sizeBytes)).sum + 0 ≤ c.maxBytes
    have hs := List.Sublist.sum_le_sum (hsubf.map (fun e => e.sizeBytes))
      (fun a ha => by
        obtain ⟨t, ht, rfl⟩ := List.mem_map.mp ha
        exact hnn t ht)
    omega

/-- C7: starting from a cache satisfying the size-accounting invariant,
every completed `Get`, `Set` and `RemoveExpired` leaves the tracked total
equal to the sum of the live entry sizes and within `cache_max_bytes`
(after `Set` evicts from the LRU tail until the total fits), and a `Set`
whose computed entry size exceeds `cache_max_bytes` inserts nothing. -/
theorem negCache_sizeInv_ops (c : NegCache) (h : c.sizeInv) (key : Str)
    (value : AIResult) (ttl now : Int) :
    ((c.get key now).2).sizeInv ∧
    (c.set key value ttl now).sizeInv ∧
    (c.removeExpired now).sizeInv ∧
    (estimateEntrySizeBytes key value > c.maxBytes → c.set key value ttl now = c) :=
  ⟨get_sizeInv c h key now, (set_sizeInv c h key value ttl now).1,
   removeExpired_sizeInv c h now, (set_sizeInv c h key value ttl now).2⟩

/-- Witness for C7 at a freshly constructed cache: a concrete `Set` keeps
the invariant. -/
theorem negCache_sizeInv_ops_witness :
    ((NegCache.new 1024).set (str "k") AIResult.zero 60 0).sizeInv := by
  have h : (NegCache.new 1024).sizeInv := by
    refine ⟨⟨by decide, rfl, ?_, List.nodup_nil⟩, by decide⟩
    intro e he
    exact absurd he (List.not_mem_nil e)
  exact (negCache_sizeInv_ops (NegCache.new 1024) h (str "k")
    AIResult.zero 60 0).2.1

/-! ## Dispatch and coercion theorems (C3, C5, C6) -/

/-- C3 (code evaluation): against the current status constants the
`dispatchByStatus` switch runs no fixed callback for status 3
(`HumanReview` has no case), sends 4 to `OnSuspicious`, 5 to
`OnCommercialOffPlatform` and 6 to `OnDangerousIllegal`, and can never
invoke `OnCritical` (its case repeats the value 6, shadowed by the
`StatusDangerousIllegal` case).  This contradicts the documented mapping
`3 → OnSuspicious, 4 → OnCommercialOffPlatform, 5 → OnDangerousIllegal,
6 → OnCritical` and the repository's own
`TestDispatchAllStatusesAndNoopMethods`. -/
theorem dispatchByStatus_drift :
    dispatchByStatus statusClean = some Callback.onClean ∧
    dispatchByStatus statusNonCriticalAbuse = some Callback.onNonCriticalAbuse ∧
    dispatchByStatus statusHumanReview = none ∧
    dispatchByStatus statusSuspicious = some Callback.onSuspicious ∧
    dispatchByStatus statusCommercialOffPlatform = some Callback.onCommercialOffPlatform ∧
    dispatchByStatus statusDangerousIllegal = some Callback.onDangerousIllegal ∧
    (∀ code : Int, dispatchByStatus code ≠ some Callback.onCritical) := by
  refine ⟨rfl, rfl, rfl, rfl, rfl, rfl, ?_⟩
  intro code
  unfold dispatchByStatus
  split_ifs with h1 h2 h3 h4 h5 h6
  · simp
  · simp
  · simp
  · simp
  · simp
  · exact absurd h6 h5
  · simp

/-- A violation carrying the out-of-range status code 7, for C5. -/
def violationSeven : Violation :=
  { Violation.zero with aiResult := { AIResult.zero with statusCode := 7 } }

/-- C5 counterexample: `Core.record` reads the out-of-range status 7 and
coerces it to `StatusSuspicious` (4), not to `HumanReview` (3) as the
claim states. -/
theorem record_coerces_to_suspicious :
    (record violationSeven).1 = 4 ∧ (record violationSeven).1 ≠ 3 := by
  constructor
  · rfl
  · decide

/-- Reduction of a successful `Except` bind. -/
theorem except_bind_ok {α β : Type} (a : α) (f : α → Except String β) :
    ((Except.ok a : Except String α) >>= f) = f a := rfl

/-- Reduction of a failed `Except` bind. -/
theorem except_bind_err {α β : Type} (e : String) (f : α → Except String β) :
    ((Except.error e : Except String α) >>= f) = Except.error e := rfl

/-- C5 as amended: a status outside 1..6 read while parsing an AI response
is coerced to `HumanReview` (3), but a status outside 1..6 read while
recording a decision is coerced to `Suspicious` (4); every result leaving
`parseResults` carries a valid status. -/
theorem status_coercion_sites (v : Violation) (r : AIResult) (j : Json) :
    (¬ statusValid v.aiResult.statusCode → (record v).1 = statusSuspicious) ∧
    (¬ statusValid r.statusCode →
      coerceParsedStatus r = { r with statusCode := statusHumanReview }) ∧
    (∀ rs, parseResults j = Except.ok rs → ∀ x ∈ rs, statusValid x.statusCode) := by
  have hco : ∀ x : AIResult, statusValid (coerceParsedStatus x).statusCode := by
    intro x
    unfold coerceParsedStatus
    by_cases hv : statusValid x.statusCode
    · rwa [if_neg (not_not_intro hv)]
    · rw [if_pos hv]
      show statusValid statusHumanReview
      decide
  have hsingle : ∀ (w : Json) (rs : List AIResult),
      (do
        let r0 ← unmarshalAIResult w
        Except.ok [coerceParsedStatus r0]) = Except.ok rs →
      ∀ x ∈ rs, statusValid x.statusCode := by
    intro w rs hok x hx
    cases hum : unmarshalAIResult w with
    | error e =>
      rw [hum, except_bind_err] at hok
      exact Except.noConfusion hok
    | ok r0 =>
      rw [hum, except_bind_ok] at hok
      injection hok with hok
      subst hok
      rw [List.mem_singleton] at hx
      exact hx ▸ hco r0
  refine ⟨?_, ?_, ?_⟩
  · intro hinv
    unfold record
    simp only [if_neg hinv]
  · intro hinv
    unfold coerceParsedStatus
    rw [if_pos hinv]
  · intro rs hok x hx
    cases j with
    | arr items =>
      have hok2 : (do
          let rs0 ← mapMResults items
          Except.ok (rs0.map coerceParsedStatus)) = Except.ok rs := hok
      cases hmap : mapMResults items with
      | error e =>
        rw [hmap, except_bind_err] at hok2
        exact Except.noConfusion hok2
      | ok rs0 =>
        rw [hmap, except_bind_ok] at hok2
        injection hok2 with hok2
        subst hok2
        obtain ⟨y, -, rfl⟩ := List.mem_map.mp hx
        exact hco y
    | null => exact hsingle Json.null rs hok x hx
    | jbool b => exact hsingle (Json.jbool b) rs hok x hx
    | num q => exact hsingle (Json.num q) rs hok x hx
    | jstr s => exact hsingle (Json.jstr s) rs hok x hx
    | obj fields => exact hsingle (Json.obj fields) rs hok x hx

/-- An `AIResult` carrying the out-of-range status 9, for the C5 witness. -/
def aiNine : AIResult := { AIResult.zero with statusCode := 9 }

/-- Witness for the amended C5 at concrete out-of-range inputs. -/
theorem status_coercion_sites_witness :
    (record violationSeven).1 = statusSuspicious ∧
    coerceParsedStatus aiNine = { aiNine with statusCode := statusHumanReview } :=
  ⟨(status_coercion_sites violationSeven aiNine Json.null).1 (by decide),
   (status_coercion_sites violationSeven aiNine Json.null).2.1 (by decide)⟩

/-- Configuration used by the C6 evaluation: auto-learn on, storage
configured, threshold 7/10 exceeded by the result. -/
def learnCfg : CoreConfig :=
  { hasAnalyzer := true, hasStorage := true, confidenceThreshold := 0,
    maxMessageSize := 4096, maxLearnTokenLength := 255, cacheTTL := 3600,
    autoLearn := true }

/-- A fully confident status-3 (`HumanReview`) result carrying a trigger
token, mirroring `TestAutoLearnOnlyFromLevelFourAndAbove`. -/
def humanReviewResult : AIResult :=
  { statusCode := statusHumanReview, reason := [], confidence := 1,
    triggerTokens := [str "should-not-learn"], violatorUserID := 1,
    messageID := 1 }

/-- C6 (code evaluation): `Core.learn` has no status gate — a status-3
result above the confidence threshold persists its trigger token to
storage, contradicting the intended policy asserted by
`TestAutoLearnOnlyFromLevelFourAndAbove` (statuses 1..3 must never
persist). -/
theorem learn_ignores_status_gate :
    humanReviewResult.statusCode = statusHumanReview ∧
    ¬ (statusSuspicious ≤ humanReviewResult.statusCode) ∧
    (learn learnCfg EngineState.empty humanReviewResult).2 =
      [str "should-not-learn"] := by
  refine ⟨rfl, by decide, ?_⟩
  decide

/-! ## Serialization theorems (C9) -/

theorem asInt_intCast (n : Int) : asInt (Json.num (n : Rat)) = Except.ok n := by
  simp only [asInt]
  rw [if_pos (Rat.den_intCast n), Rat.num_intCast]

theorem mapMStr_map_jstr (l : List Str) :
    mapMStr (l.map Json.jstr) = Except.ok l := by
  induction l with
  | nil => rfl
  | cons s rest ih => simp only [List.map_cons, mapMStr, asStr, ih]

/-- Computation of `UnmarshalJSON` on an object carrying exactly the
compact field letters: the full-shape attempt reads only zero values and
falls through, then the compact shape reconstructs the result. -/
theorem unmarshal_obj_compact (F : List (Str × Json)) (r : AIResult)
    (hsc : getField F (str "status_code") = none)
    (hre : getField F (str "reason") = none)
    (hcf : getField F (str "confidence") = none)
    (htt : getField F (str "trigger_tokens") = none)
    (hvu : getField F (str "violator_user_id") = none)
    (hmi : getField F (str "message_id") = none)
    (ha : getField F (str "a") = some (Json.num (r.statusCode : Rat)))
    (hb : getField F (str "b") = some (Json.jstr r.reason))
    (hc : getField F (str "c") = some (Json.num r.confidence))
    (hd : getField F (str "d") = some (Json.arr (r.triggerTokens.map Json.jstr)))
    (hge : getField F (str "e") = if r.violatorUserID = 0 then none
           else some (Json.num (r.violatorUserID : Rat)))
    (hgf : getField F (str "f") = if r.messageID = 0 then none
           else some (Json.num (r.messageID : Rat)))
    (hs : r.statusCode ≠ 0) :
    unmarshalAIResult (Json.obj F) = Except.ok r := by
  have hfull : decodeFullAIResult (Json.obj F) = Except.ok AIResult.zero := by
    simp only [decodeFullAIResult, decodeField, hsc, hre, hcf, htt, hvu, hmi,
      except_bind_ok]
    rfl
  have ha' : decodeField F (str "a") asInt 0 = Except.ok r.statusCode := by
    simp only [decodeField, ha]
    exact asInt_intCast r.statusCode
  have hb' : decodeField F (str "b") asStr [] = Except.ok r.reason := by
    simp only [decodeField, hb, asStr]
  have hc' : decodeField F (str "c") asNum 0 = Except.ok r.confidence := by
    simp only [decodeField, hc, asNum]
  have hd' : decodeField F (str "d") asStrList [] = Except.ok r.triggerTokens := by
    simp only [decodeField, hd, asStrList]
    exact mapMStr_map_jstr r.triggerTokens
  have he' : decodeField F (str "e") asInt 0 = Except.ok r.violatorUserID := by
    by_cases h0 : r.violatorUserID = 0
    · rw [if_pos h0] at hge
      simp only [decodeField, hge]
      rw [h0]
    · rw [if_neg h0] at hge
      simp only [decodeField, hge]
      exact asInt_intCast r.violatorUserID
  have hf' : decodeField F (str "f") asInt 0 = Except.ok r.messageID := by
    by_cases h0 : r.messageID = 0
    · rw [if_pos h0] at hgf
      simp only [decodeField, hgf]
      rw [h0]
    · rw [if_neg h0] at hgf
      simp only [decodeField, hgf]
      exact asInt_intCast r.messageID
  have hcompact : decodeCompactAIResult (Json.obj F) = Except.ok r := by
    simp only [decodeCompactAIResult, ha', hb', hc', hd', he', hf', except_bind_ok]
  have hzero : ¬ (AIResult.zero.statusCode ≠ 0) := by decide
  simp only [unmarshalAIResult, hfull]
  rw [if_neg hzero]
  simp only [unmarshalCompactFallback, hcompact]
  rw [if_pos hs]

/-- C9: marshaling any `AIResult` produces the compact field-letter JSON
shape, and for every result whose status is in 1..6, unmarshaling the
marshaled document restores the result exactly. -/
theorem aiResult_marshal_roundtrip (r : AIResult) :
    isCompactShape (marshalAIResult r) ∧
    ((1 ≤ r.statusCode ∧ r.statusCode ≤ 6) →
      unmarshalAIResult (marshalAIResult r) = Except.ok r) := by
  constructor
  · simp only [marshalAIResult, isCompactShape]
    intro f hf
    simp only [List.mem_append] at hf
    rcases hf with (hf | hf) | hf
    · simp only [List.mem_cons, List.not_mem_nil, or_false] at hf
      rcases hf with rfl | rfl | rfl | rfl <;> simp [compactKeys]
    · by_cases he : r.violatorUserID = 0
      · rw [if_pos he] at hf
        exact absurd hf (List.not_mem_nil f)
      · rw [if_neg he] at hf
        rw [List.mem_singleton] at hf
        subst hf
        simp [compactKeys]
    · by_cases hfm : r.messageID = 0
      · rw [if_pos hfm] at hf
        exact absurd hf (List.not_mem_nil f)
      · rw [if_neg hfm] at hf
        rw [List.mem_singleton] at hf
        subst hf
        simp [compactKeys]
  · rintro ⟨hs1, hs2⟩
    have hne : r.statusCode ≠ 0 := by omega
    by_cases he : r.violatorUserID = 0 <;> by_cases hfm : r.messageID = 0
    · rw [show marshalAIResult r = Json.obj
        [(str "a", Json.num (r.statusCode : Rat)),
         (str "b", Json.jstr r.reason),
         (str "c", Json.num r.confidence),
         (str "d", Json.arr (r.triggerTokens.map Json.jstr))] from by
          unfold marshalAIResult
          rw [if_pos he, if_pos hfm, List.append_nil, List.append_nil]]
      exact unmarshal_obj_compact _ r rfl rfl rfl rfl rfl rfl rfl rfl rfl rfl
        (by rw [if_pos he]; rfl) (by rw [if_pos hfm]; rfl) hne
    · rw [show marshalAIResult r = Json.obj
        [(str "a", Json.num (r.statusCode : Rat)),
         (str "b", Json.jstr r.reason),
         (str "c", Json.num r.confidence),
         (str "d", Json.arr (r.triggerTokens.map Json.jstr)),
         (str "f", Json.num (r.messageID : Rat))] from by
          unfold marshalAIResult
          rw [if_pos he, if_neg hfm, List.append_nil]
          rfl]
      exact unmarshal_obj_compact _ r rfl rfl rfl rfl rfl rfl rfl rfl rfl rfl
        (by rw [if_pos he]; rfl) (by rw [if_neg hfm]; rfl) hne
    · rw [show marshalAIResult r = Json.obj
        [(str "a", Json.num (r.statusCode : Rat)),
         (str "b", Json.jstr r.reason),
         (str "c", Json.num r.confidence),
         (str "d", Json.arr (r.triggerTokens.map Json.jstr)),
         (str "e", Json.num (r.violatorUserID : Rat))] from by
          unfold marshalAIResult
          rw [if_neg he, if_pos hfm, List.append_nil]
          rfl]
      exact unmarshal_obj_compact _ r rfl rfl rfl rfl rfl rfl rfl rfl rfl rfl
        (by rw [if_neg he]; rfl) (by rw [if_pos hfm]; rfl) hne
    · rw [show marshalAIResult r = Json.obj
        [(str "a", Json.num (r.statusCode : Rat)),
         (str "b", Json.jstr r.reason),
         (str "c", Json.num r.confidence),
         (str "d", Json.arr (r.triggerTokens.map Json.jstr)),
         (str "e", Json.num (r.violatorUserID : Rat)),
         (str "f", Json.num (r.messageID : Rat))] from by
          unfold marshalAIResult
          rw [if_neg he, if_neg hfm]
          rfl]
      exact unmarshal_obj_compact _ r rfl rfl rfl rfl rfl rfl rfl rfl rfl rfl
        (by rw [if_neg he]; rfl) (by rw [if_neg hfm]; rfl) hne

/-- Witness for C9 at a concrete commercial-off-platform result. -/
theorem aiResult_marshal_roundtrip_witness :
    unmarshalAIResult (marshalAIResult
      { statusCode := 5, reason := str "promo", confidence := 1,
        triggerTokens := [str "buy now"], violatorUserID := 77,
        messageID := 11 }) = Except.ok
      { statusCode := 5, reason := str "promo", confidence := 1,
        triggerTokens := [str "buy now"], violatorUserID := 77,
        messageID := 11 } :=
  (aiResult_marshal_roundtrip _).2 (by decide)

/-! ## Pipeline lemmas (C1, C2) -/

theorem prepMsg_id (cfg : CoreConfig) (m : Message) : (prepMsg cfg m).id = m.id := by
  unfold prepMsg
  split <;> rfl

theorem prepMsg_user (cfg : CoreConfig) (m : Message) : (prepMsg cfg m).user = m.user := by
  unfold prepMsg
  split <;> rfl

/-- The preparation of one message either fills the slot with a violation
for the prepared message, or queues the prepared message; in trigger-filter
mode a queued message always carries its non-empty trigger list. -/
theorem prepOne_shape (cfg : CoreConfig) (eng : EngineState)
    (cache : Option NegCache) (now : Int) (skip : Bool) (msg : Message) :
    (∃ v c2, prepOne cfg eng cache now skip msg = ((some v, none), c2) ∧
       v.message = prepMsg cfg msg) ∨
    (∃ trg c2, prepOne cfg eng cache now skip msg =
       ((none, some (prepMsg cfg msg, trg)), c2) ∧
       (skip = false → (trg = findTriggers eng (prepMsg cfg msg).data ∧ trg ≠ []))) := by
  cases skip with
  | true =>
    rcases hgc : getCachedNegative cache (prepMsg cfg msg).data (prepMsg cfg msg) now
      with ⟨o, c2⟩
    cases o with
    | some cached =>
      left
      refine ⟨{ message := prepMsg cfg msg, aiResult := cached,
                triggered := false }, c2, ?_, rfl⟩
      simp [prepOne, hgc]
    | none =>
      right
      refine ⟨[], c2, ?_, by simp⟩
      simp [prepOne, hgc]
  | false =>
    by_cases htr : findTriggers eng (prepMsg cfg msg).data = []
    · left
      refine ⟨cleanViolation (prepMsg cfg msg), cache, ?_, rfl⟩
      simp [prepOne, htr]
    · rcases hgc : getCachedNegative cache (prepMsg cfg msg).data (prepMsg cfg msg) now
        with ⟨o, c2⟩
      cases o with
      | some cached =>
        left
        refine ⟨{ message := prepMsg cfg msg,
                  aiResult := if cached.triggerTokens = [] then
                      { cached with
                        triggerTokens := findTriggers eng (prepMsg cfg msg).data }
                    else cached,
                  triggered := true }, c2, ?_, rfl⟩
        simp [prepOne, hgc, htr]
      | none =>
        right
        refine ⟨findTriggers eng (prepMsg cfg msg).data, c2, ?_,
          fun _ => ⟨rfl, htr⟩⟩
        simp [prepOne, hgc, htr]

/-- A message without triggers (trigger-filter mode) fills its slot with
the synthesized clean decision and leaves the cache untouched. -/
theorem prepOne_notrigger (cfg : CoreConfig) (eng : EngineState)
    (cache : Option NegCache) (now : Int) (msg : Message)
    (h : findTriggers eng (prepMsg cfg msg).data = []) :
    prepOne cfg eng cache now false msg =
      ((some (cleanViolation (prepMsg cfg msg)), none), cache) := by
  simp only [prepOne, h]
  rfl

/-- Full characterization of the preparation loop: slot and flag lists
mirror the input batch, filled slots carry their prepared message, queued
entries map back to their unfilled slot, and in trigger-filter mode a
trigger-free message yields the synthesized clean decision. -/
theorem prepareLoop_spec (cfg : CoreConfig) (eng : EngineState) (now : Int)
    (skip : Bool) :
    ∀ (msgs : List Message) (i : Nat) (cache : Option NegCache)
      (out : List Violation) (fl : List Bool) (pends : List Pending)
      (cache2 : Option NegCache),
      prepareLoop cfg eng now skip msgs i cache = (out, fl, pends, cache2) →
      out.length = msgs.length ∧
      fl.length = msgs.length ∧
      (∀ j, j < msgs.length → fl.getD j false = true →
        (out.getD j Violation.zero).message = prepMsg cfg (msgs.getD j Message.zero)) ∧
      (∀ p ∈ pends, ∃ j, j < msgs.length ∧ p.index = i + j ∧
        p.message = prepMsg cfg (msgs.getD j Message.zero) ∧
        fl.getD j false = false ∧
        (skip = false → (p.triggers = findTriggers eng p.message.data ∧ p.triggers ≠ []))) ∧
      (∀ j, j < msgs.length → fl.getD j false = false →
        ∃ p, p ∈ pends ∧ p.index = i + j) ∧
      (skip = false → ∀ j, j < msgs.length →
        findTriggers eng (prepMsg cfg (msgs.getD j Message.zero)).data = [] →
        fl.getD j false = true ∧
        out.getD j Violation.zero = cleanViolation (prepMsg cfg (msgs.getD j Message.zero))) := by
  intro msgs
  induction msgs with
  | nil =>
    intro i cache out fl pends cache2 hp
    simp only [prepareLoop] at hp
    cases hp
    refine ⟨rfl, rfl, ?_, ?_, ?_, ?_⟩
    · intro j hj
      exact absurd hj (by simp)
    · intro p hp
      exact absurd hp (List.not_mem_nil p)
    · intro j hj
      exact absurd hj (by simp)
    · intro _ j hj
      exact absurd hj (by simp)
  | cons m rest ih =>
    intro i cache out fl pends cache2 hp
    rcases prepOne_shape cfg eng cache now skip m with
      ⟨v, c2, heq, hv⟩ | ⟨trg, c2, heq, htrg⟩
    · -- slot filled during phase 1
      have hunf : prepareLoop cfg eng now skip (m :: rest) i cache =
          (v :: (prepareLoop cfg eng now skip rest (i + 1) c2).1,
           true :: (prepareLoop cfg eng now skip rest (i + 1) c2).2.1,
           (prepareLoop cfg eng now skip rest (i + 1) c2).2.2.1,
           (prepareLoop cfg eng now skip rest (i + 1) c2).2.2.2) := by
        simp only [prepareLoop, heq]
      rw [hunf] at hp
      cases hp
      obtain ⟨h1, h2, h3, h4, h5, h6⟩ := ih (i + 1) c2
        (prepareLoop cfg eng now skip rest (i + 1) c2).1
        (prepareLoop cfg eng now skip rest (i + 1) c2).2.1
        (prepareLoop cfg eng now skip rest (i + 1) c2).2.2.1
        (prepareLoop cfg eng now skip rest (i + 1) c2).2.2.2 rfl
      refine ⟨by simp [h1], by simp [h2], ?_, ?_, ?_, ?_⟩
      · intro j hj hf
        cases j with
        | zero => simpa using hv
        | succ j =>
          simp only [List.getD_cons_succ] at hf ⊢
          exact h3 j (by simpa using hj) hf
      · intro p hpmem
        obtain ⟨j, hj, hidx, hmsg, hfl, htrig⟩ := h4 p hpmem
        refine ⟨j + 1, by simpa using hj, by omega, by simpa using hmsg, ?_, htrig⟩
        simpa using hfl
      · intro j hj hf
        cases j with
        | zero => simp at hf
        | succ j =>
          simp only [List.getD_cons_succ] at hf
          obtain ⟨p, hpmem, hidx⟩ := h5 j (by simpa using hj) hf
          exact ⟨p, hpmem, by omega⟩
      · intro hskip j hj hnt
        cases j with
        | zero =>
          subst hskip
          simp only [List.getD_cons_zero] at hnt ⊢
          have := prepOne_notrigger cfg eng cache now m hnt
          rw [this] at heq
          injection heq with heq1 _
          injection heq1 with heq2 _
          injection heq2 with heq3
          exact ⟨by trivial, heq3.symm⟩
        | succ j =>
          simp only [List.getD_cons_succ] at hnt ⊢
          exact h6 hskip j (by simpa using hj) hnt
    · -- slot queued for the AI stage
      have hunf : prepareLoop cfg eng now skip (m :: rest) i cache =
          (Violation.zero :: (prepareLoop cfg eng now skip rest (i + 1) c2).1,
           false :: (prepareLoop cfg eng now skip rest (i + 1) c2).2.1,
           { index := i, message := prepMsg cfg m, triggers := trg } ::
             (prepareLoop cfg eng now skip rest (i + 1) c2).2.2.1,
           (prepareLoop cfg eng now skip rest (i + 1) c2).2.2.2) := by
        simp only [prepareLoop, heq]
      rw [hunf] at hp
      cases hp
      obtain ⟨h1, h2, h3, h4, h5, h6⟩ := ih (i + 1) c2
        (prepareLoop cfg eng now skip rest (i + 1) c2).1
        (prepareLoop cfg eng now skip rest (i + 1) c2).2.1
        (prepareLoop cfg eng now skip rest (i + 1) c2).2.2.1
        (prepareLoop cfg eng now skip rest (i + 1) c2).2.2.2 rfl
      refine ⟨by simp [h1], by simp [h2], ?_, ?_, ?_, ?_⟩
      · intro j hj hf
        cases j with
        | zero => simp at hf
        | succ j =>
          simp only [List.getD_cons_succ] at hf ⊢
          exact h3 j (by simpa using hj) hf
      · intro p hpmem
        rcases List.mem_cons.mp hpmem with rfl | hpmem
        · refine ⟨0, by simp, by simp, by simp, by simp, ?_⟩
          intro hskip
          obtain ⟨ht1, ht2⟩ := htrg hskip
          exact ⟨ht1, ht2⟩
        · obtain ⟨j, hj, hidx, hmsg, hfl, htrig⟩ := h4 p hpmem
          refine ⟨j + 1, by simpa using hj, by omega, by simpa using hmsg, ?_, htrig⟩
          simpa using hfl
      · intro j hj hf
        cases j with
        | zero =>
          exact ⟨{ index := i, message := prepMsg cfg m, triggers := trg },
            List.mem_cons_self _ _, by simp⟩
        | succ j =>
          simp only [List.getD_cons_succ] at hf
          obtain ⟨p, hpmem, hidx⟩ := h5 j (by simpa using hj) hf
          exact ⟨p, List.mem_cons_of_mem _ hpmem, by omega⟩
      · intro hskip j hj hnt
        cases j with
        | zero =>
          subst hskip
          simp only [List.getD_cons_zero] at hnt
          have := prepOne_notrigger cfg eng cache now m hnt
          rw [this] at heq
          injection heq with heq1 _
          injection heq1 with heq2 _
          exact absurd heq2.symm (by simp)
        | succ j =>
          simp only [List.getD_cons_succ] at hnt ⊢
          exact h6 hskip j (by simpa using hj) hnt

theorem getD_set_self {α : Type} (l : List α) (i : Nat) (a d : α)
    (h : i < l.length) : (l.set i a).getD i d = a := by
  rw [List.getD_eq_getElem?_getD, List.getElem?_set_eq_of_lt a h]
  rfl

theorem getD_set_ne {α : Type} (l : List α) (i j : Nat) (a d : α)
    (h : i ≠ j) : (l.set i a).getD j d = l.getD j d := by
  rw [List.getD_eq_getElem?_getD, List.getElem?_set_ne h,
    ← List.getD_eq_getElem?_getD]

theorem getD_mem {α : Type} : ∀ (l : List α) (j : Nat) (d : α),
    j < l.length → l.getD j d ∈ l := by
  intro l
  induction l with
  | nil => intro j d hj; exact absurd hj (by simp)
  | cons a rest ih =>
    intro j d hj
    cases j with
    | zero => simp
    | succ j =>
      rw [List.getD_cons_succ]
      exact List.mem_cons_of_mem a (ih j d (by simpa using hj))

/-- Characterization of the merge loop: each slot is either untouched or
overwritten, with its flag set, by the queued entry carrying its index. -/
theorem mergeLoop_spec (cfg : CoreConfig) (now : Int) (results : List AIResult) :
    ∀ (pends : List Pending) (ms : MergeState),
      (∀ q ∈ pends, q.index < ms.out.length ∧ q.index < ms.filled.length) →
      (mergeLoop cfg now results pends ms).out.length = ms.out.length ∧
      (mergeLoop cfg now results pends ms).filled.length = ms.filled.length ∧
      (∀ j,
        ((mergeLoop cfg now results pends ms).out.getD j Violation.zero =
            ms.out.getD j Violation.zero ∧
         (mergeLoop cfg now results pends ms).filled.getD j false =
            ms.filled.getD j false) ∨
        (∃ p, p ∈ pends ∧ p.index = j ∧
          ((mergeLoop cfg now results pends ms).out.getD j Violation.zero).message =
            p.message ∧
          (mergeLoop cfg now results pends ms).filled.getD j false = true)) := by
  intro pends
  induction pends with
  | nil =>
    intro ms _
    exact ⟨rfl, rfl, fun j => Or.inl ⟨rfl, rfl⟩⟩
  | cons p rest ih =>
    intro ms hbnd
    set v : Violation :=
      { message := p.message, triggered := decide (p.triggers ≠ []),
        aiResult := normalizeResult
          ((lookupByID results p.message.id).getD (missingAIResult p))
          p.message p.triggers } with hv
    set ms2 : MergeState :=
      { out := ms.out.set p.index v,
        filled := ms.filled.set p.index true,
        eng := (learn cfg ms.eng v.aiResult).1,
        cache := setCachedNegative cfg ms.cache p.message.data v.aiResult now,
        persisted := ms.persisted ++ (learn cfg ms.eng v.aiResult).2 } with hms2
    have hstep : mergeLoop cfg now results (p :: rest) ms =
        mergeLoop cfg now results rest ms2 := rfl
    have hlen2 : ms2.out.length = ms.out.length ∧ ms2.filled.length = ms.filled.length := by
      rw [hms2]
      exact ⟨List.length_set .., List.length_set ..⟩
    have hbnd2 : ∀ q ∈ rest, q.index < ms2.out.length ∧ q.index < ms2.filled.length := by
      intro q hq
      rw [hlen2.1, hlen2.2]
      exact hbnd q (List.mem_cons_of_mem p hq)
    obtain ⟨h1, h2, h3⟩ := ih ms2 hbnd2
    rw [hstep]
    refine ⟨by rw [h1, hlen2.1], by rw [h2, hlen2.2], ?_⟩
    intro j
    rcases h3 j with ⟨ho, hf⟩ | ⟨q, hq, hidx, hom, hfl⟩
    · by_cases hij : p.index = j
      · right
        refine ⟨p, List.mem_cons_self p rest, hij, ?_, ?_⟩
        · rw [ho, hms2, ← hij, getD_set_self _ _ _ _ (hbnd p (List.mem_cons_self p rest)).1]
        · rw [hf, hms2, ← hij, getD_set_self _ _ _ _ (hbnd p (List.mem_cons_self p rest)).2]
      · left
        constructor
        · rw [ho, hms2, getD_set_ne _ _ _ _ _ hij]
        · rw [hf, hms2, getD_set_ne _ _ _ _ _ hij]
    · exact Or.inr ⟨q, List.mem_cons_of_mem p hq, hidx, hom, hfl⟩

/-- A successful `checkFilled` returns the slots unchanged and certifies
that every flag was set. -/
theorem checkFilled_ok (out : List Violation) :
    ∀ (fl : List Bool) (vs : List Violation),
      checkFilled out fl = Except.ok vs → vs = out ∧ ∀ b ∈ fl, b = true := by
  intro fl
  induction fl with
  | nil =>
    intro vs h
    simp only [checkFilled] at h
    injection h with h
    exact ⟨h.symm, by simp⟩
  | cons b rest ih =>
    intro vs h
    simp only [checkFilled] at h
    by_cases hb : b = true
    · rw [if_pos hb] at h
      obtain ⟨h1, h2⟩ := ih vs h
      refine ⟨h1, ?_⟩
      intro x hx
      rcases List.mem_cons.mp hx with rfl | hx
      · exact hb
      · exact h2 x hx
    · rw [if_neg hb] at h
      exact Except.noConfusion h

/-- Inversion of a successful `ProcessBatchWithOptions` call: the
preparation loop ran, and either nothing was queued and the prepared slots
were returned with no AI call, or the analyzer was called on the queue and
the merged slots passed the filled check. -/
theorem processBatch_inversion (cfg : CoreConfig)
    (analyze : List Message → Except String (List AIResult))
    (st : CoreState) (now : Int) (messages : List Message) (skip : Bool)
    (out : List Violation) (st2 : CoreState) (aiReq : List Message)
    (hne : messages ≠ [])
    (hok : processBatchWithOptions cfg analyze st now messages skip =
      Except.ok (out, st2, aiReq)) :
    ∃ out0 fl0 pends0 cache1,
      prepareLoop cfg st.eng now skip messages 0 st.cache =
        (out0, fl0, pends0, cache1) ∧
      ((pends0 = [] ∧ out = out0 ∧ aiReq = []) ∨
       (pends0 ≠ [] ∧ aiReq = pends0.map (fun p => p.message) ∧
        ∃ results,
          analyze (pends0.map (fun p => p.message)) = Except.ok results ∧
          checkFilled
            (mergeLoop cfg now results pends0
              { out := out0, filled := fl0, eng := st.eng, cache := cache1,
                persisted := st.persisted }).out
            (mergeLoop cfg now results pends0
              { out := out0, filled := fl0, eng := st.eng, cache := cache1,
                persisted := st.persisted }).filled = Except.ok out)) := by
  unfold processBatchWithOptions at hok
  by_cases hv1 : ¬ cfg.hasAnalyzer = true
  · rw [if_pos hv1] at hok
    exact Except.noConfusion hok
  rw [if_neg hv1] at hok
  by_cases hv2 : ¬ cfg.hasStorage = true
  · rw [if_pos hv2] at hok
    exact Except.noConfusion hok
  rw [if_neg hv2] at hok
  by_cases hv3 : cfg.maxMessageSize ≤ 0
  · rw [if_pos hv3] at hok
    exact Except.noConfusion hok
  rw [if_neg hv3, if_neg hne] at hok
  rcases hprep : prepareLoop cfg st.eng now skip messages 0 st.cache
    with ⟨out0, fl0, pends0, cache1⟩
  refine ⟨out0, fl0, pends0, cache1, rfl, ?_⟩
  simp only [hprep] at hok
  by_cases hpends : pends0 = []
  · rw [if_pos hpends] at hok
    injection hok with h
    injection h with ha h
    injection h with hb hc
    exact Or.inl ⟨hpends, ha.symm, hc.symm⟩
  · rw [if_neg hpends] at hok
    cases hana : analyze (pends0.map fun p => p.message) with
    | error e =>
      simp only [hana] at hok
      exact Except.noConfusion hok
    | ok results =>
      simp only [hana] at hok
      cases hchk : checkFilled
          (mergeLoop cfg now results pends0
            { out := out0, filled := fl0, eng := st.eng, cache := cache1,
              persisted := st.persisted }).out
          (mergeLoop cfg now results pends0
            { out := out0, filled := fl0, eng := st.eng, cache := cache1,
              persisted := st.persisted }).filled with
      | error e =>
        simp only [hchk] at hok
        exact Except.noConfusion hok
      | ok vs =>
        simp only [hchk] at hok
        injection hok with h
        injection h with ha h
        injection h with hb hc
        refine Or.inr ⟨hpends, hc.symm, results, rfl, ?_⟩
        rw [← ha]
        exact hchk

/-! ## Batch shape and the clean short-circuit (C1, C2) -/

/-- C1: for every non-empty batch on which `ProcessBatchWithOptions`
succeeds, the output has the same length as the input and the violation at
each index carries the message with that input slot's id; the success
hypothesis itself certifies the exit invariant, since an unfilled slot
makes `checkFilled` return the internal mismatch error instead of `ok`. -/
theorem processBatch_length_order (cfg : CoreConfig)
    (analyze : List Message → Except String (List AIResult))
    (st : CoreState) (now : Int) (messages : List Message) (skip : Bool)
    (out : List Violation) (st2 : CoreState) (aiReq : List Message)
    (hne : messages ≠ [])
    (hok : processBatchWithOptions cfg analyze st now messages skip =
      Except.ok (out, st2, aiReq)) :
    out.length = messages.length ∧
    ∀ j, j < messages.length →
      (out.getD j Violation.zero).message.id =
        (messages.getD j Message.zero).id := by
  obtain ⟨out0, fl0, pends0, cache1, hprep, hcase⟩ :=
    processBatch_inversion cfg analyze st now messages skip out st2 aiReq hne hok
  obtain ⟨h1, h2, h3, h4, h5, h6⟩ :=
    prepareLoop_spec cfg st.eng now skip messages 0 st.cache out0 fl0 pends0
      cache1 hprep
  rcases hcase with ⟨hpends, rfl, rfl⟩ | ⟨hpends, haireq, results, hana, hchk⟩
  · -- no message was queued: every slot was filled during preparation
    have hfl : ∀ j, j < messages.length → fl0.getD j false = true := by
      intro j hj
      cases hb : fl0.getD j false with
      | true => rfl
      | false =>
        obtain ⟨p, hp, _⟩ := h5 j hj hb
        rw [hpends] at hp
        exact absurd hp (List.not_mem_nil p)
    refine ⟨h1, ?_⟩
    intro j hj
    rw [h3 j hj (hfl j hj), prepMsg_id]
  · -- the AI stage ran and the merged slots passed the filled check
    set ms0 : MergeState :=
      { out := out0, filled := fl0, eng := st.eng, cache := cache1,
        persisted := st.persisted } with hms0
    have hbnd : ∀ q ∈ pends0,
        q.index < ms0.out.length ∧ q.index < ms0.filled.length := by
      intro q hq
      obtain ⟨j, hj, hidx, _⟩ := h4 q hq
      constructor
      · show q.index < out0.length
        omega
      · show q.index < fl0.length
        omega
    obtain ⟨hl1, hl2, hslot⟩ := mergeLoop_spec cfg now results pends0 ms0 hbnd
    obtain ⟨hout, hallfl⟩ := checkFilled_ok _ _ _ hchk
    have hlen : out.length = messages.length := by
      rw [hout, hl1]
      show out0.length = messages.length
      exact h1
    refine ⟨hlen, ?_⟩
    intro j hj
    rcases hslot j with ⟨ho, hf⟩ | ⟨p, hp, hidx, hom, _⟩
    · -- untouched slot: its flag was already set in phase 1
      have hjlen : j < (mergeLoop cfg now results pends0 ms0).filled.length := by
        rw [hl2]
        show j < fl0.length
        omega
      have htrue := hallfl _ (getD_mem _ j false hjlen)
      rw [hf] at htrue
      have h3' := h3 j hj htrue
      rw [hout, ho]
      show (out0.getD j Violation.zero).message.id =
        (messages.getD j Message.zero).id
      rw [h3', prepMsg_id]
    · -- slot overwritten by the queued entry carrying its index
      obtain ⟨j2, hj2, hidx2, hmsg2, _, _⟩ := h4 p hp
      have hjj : j2 = j := by omega
      subst hjj
      rw [hout, hom, hmsg2, prepMsg_id]

def witCfg : CoreConfig :=
  { hasAnalyzer := true, hasStorage := true, confidenceThreshold := 1,
    maxMessageSize := 4096, maxLearnTokenLength := 255, cacheTTL := 3600,
    autoLearn := true }

def witAna : List Message → Except String (List AIResult) := fun msgs =>
  Except.ok (msgs.map (fun m =>
    { statusCode := statusSuspicious, reason := [], confidence := 1,
      triggerTokens := [str "bad"], violatorUserID := m.user,
      messageID := m.id }))

def witSt : CoreState :=
  { eng := (addToken EngineState.empty (str "bad")).1,
    cache := some (NegCache.new 65536), persisted := [] }

def witMsgs : List Message :=
  [{ id := 1, dialogID := [], user := 2, data := str "hello" },
   { id := 2, dialogID := [], user := 3, data := str "bad stuff" }]

def witResult : AIResult :=
  { statusCode := statusSuspicious, reason := [], confidence := 1,
    triggerTokens := [str "bad"], violatorUserID := 3, messageID := 2 }

def witOut : List Violation :=
  [cleanViolation { id := 1, dialogID := [], user := 2, data := str "hello" },
   { message := { id := 2, dialogID := [], user := 3, data := str "bad stuff" },
     aiResult := witResult, triggered := true }]

def witSt2 : CoreState :=
  { eng := { tokens := [str "bad"], phrases := [] },
    cache := some
      { maxBytes := 65536, totalBytes := 140,
        entries := [{ key := str "bad stuff", value := witResult,
                      expiresAt := 3600, sizeBytes := 140 }] },
    persisted := [] }

def witAiReq : List Message :=
  [{ id := 2, dialogID := [], user := 3, data := str "bad stuff" }]

theorem processBatch_length_order_witness :
    witOut.length = witMsgs.length ∧
    (witOut.getD 1 Violation.zero).message.id =
      (witMsgs.getD 1 Message.zero).id :=
  ⟨(processBatch_length_order witCfg witAna witSt 0 witMsgs false witOut witSt2
      witAiReq (by decide) (by rfl)).1,
   (processBatch_length_order witCfg witAna witSt 0 witMsgs false witOut witSt2
      witAiReq (by decide) (by rfl)).2 1 (by decide)⟩

/-- C2: with the trigger filter active, a message whose truncated data
fires no trigger yields the synthesized clean decision — status Clean,
reason "no trigger", confidence 1, not triggered, ids from the input
message — and that message is never handed to the AI analyzer. -/
theorem processBatch_clean_short_circuit (cfg : CoreConfig)
    (analyze : List Message → Except String (List AIResult))
    (st : CoreState) (now : Int) (messages : List Message)
    (out : List Violation) (st2 : CoreState) (aiReq : List Message) (j : Nat)
    (hne : messages ≠ [])
    (hok : processBatchWithOptions cfg analyze st now messages false =
      Except.ok (out, st2, aiReq))
    (hj : j < messages.length)
    (hnt : findTriggers st.eng
      (prepMsg cfg (messages.getD j Message.zero)).data = []) :
    out.getD j Violation.zero =
      cleanViolation (prepMsg cfg (messages.getD j Message.zero)) ∧
    (out.getD j Violation.zero).aiResult.statusCode = statusClean ∧
    (out.getD j Violation.zero).aiResult.reason = str "no trigger" ∧
    (out.getD j Violation.zero).aiResult.confidence = 1 ∧
    (out.getD j Violation.zero).triggered = false ∧
    (out.getD j Violation.zero).aiResult.messageID =
      (messages.getD j Message.zero).id ∧
    (out.getD j Violation.zero).aiResult.violatorUserID =
      (messages.getD j Message.zero).user ∧
    prepMsg cfg (messages.getD j Message.zero) ∉ aiReq := by
  obtain ⟨out0, fl0, pends0, cache1, hprep, hcase⟩ :=
    processBatch_inversion cfg analyze st now messages false out st2 aiReq hne hok
  obtain ⟨h1, h2, h3, h4, h5, h6⟩ :=
    prepareLoop_spec cfg st.eng now false messages 0 st.cache out0 fl0 pends0
      cache1 hprep
  obtain ⟨hfl6, hslot6⟩ := h6 rfl j hj hnt
  have hnotai : ∀ p ∈ pends0,
      p.message ≠ prepMsg cfg (messages.getD j Message.zero) := by
    intro p hp heqm
    obtain ⟨j2, hj2, hidx2, hmsg2, hfl2, htrg2⟩ := h4 p hp
    obtain ⟨ht1, ht2⟩ := htrg2 rfl
    rw [heqm, hnt] at ht1
    exact ht2 ht1
  have key : out.getD j Violation.zero =
      cleanViolation (prepMsg cfg (messages.getD j Message.zero)) ∧
      prepMsg cfg (messages.getD j Message.zero) ∉ aiReq := by
    rcases hcase with ⟨hpends, rfl, rfl⟩ | ⟨hpends, haireq, results, hana, hchk⟩
    · exact ⟨hslot6, List.not_mem_nil _⟩
    · set ms0 : MergeState :=
        { out := out0, filled := fl0, eng := st.eng, cache := cache1,
          persisted := st.persisted } with hms0
      have hbnd : ∀ q ∈ pends0,
          q.index < ms0.out.length ∧ q.index < ms0.filled.length := by
        intro q hq
        obtain ⟨j2, hj2, hidx2, _⟩ := h4 q hq
        constructor
        · show q.index < out0.length
          omega
        · show q.index < fl0.length
          omega
      obtain ⟨hl1, hl2, hslot⟩ := mergeLoop_spec cfg now results pends0 ms0 hbnd
      obtain ⟨hout, hallfl⟩ := checkFilled_ok _ _ _ hchk
      constructor
      · rcases hslot j with ⟨ho, _⟩ | ⟨p, hp, hidx, _, _⟩
        · rw [hout, ho]
          exact hslot6
        · obtain ⟨j2, hj2, hidx2, _, hfl2, _⟩ := h4 p hp
          have hjj : j2 = j := by omega
          subst hjj
          rw [hfl6] at hfl2
          simp at hfl2
      · rw [haireq]
        intro hmem
        obtain ⟨p, hp, heq⟩ := List.mem_map.mp hmem
        exact hnotai p hp heq
  obtain ⟨hslotv, hnotmem⟩ := key
  refine ⟨hslotv, ?_, ?_, ?_, ?_, ?_, ?_, hnotmem⟩ <;>
    rw [hslotv] <;>
    simp [cleanViolation, prepMsg_id, prepMsg_user]

theorem processBatch_clean_short_circuit_witness :
    witOut.getD 0 Violation.zero =
      cleanViolation (prepMsg witCfg (witMsgs.getD 0 Message.zero)) ∧
    (witOut.getD 0 Violation.zero).aiResult.statusCode = statusClean ∧
    (witOut.getD 0 Violation.zero).aiResult.reason = str "no trigger" ∧
    (witOut.getD 0 Violation.zero).aiResult.confidence = 1 ∧
    (witOut.getD 0 Violation.zero).triggered = false ∧
    (witOut.getD 0 Violation.zero).aiResult.messageID =
      (witMsgs.getD 0 Message.zero).id ∧
    (witOut.getD 0 Violation.zero).aiResult.violatorUserID =
      (witMsgs.getD 0 Message.zero).user ∧
    prepMsg witCfg (witMsgs.getD 0 Message.zero) ∉ witAiReq :=
  processBatch_clean_short_circuit witCfg witAna witSt 0 witMsgs witOut witSt2
    witAiReq 0 (by decide) (by rfl) (by decide) (by rfl)

/-! ## Cache idempotence across two single-message calls (C4) -/

theorem normalizeResult_statusCode (r : AIResult) (msg : Message)
    (triggers : List Str) :
    (normalizeResult r msg triggers).statusCode = r.statusCode := by
  simp only [normalizeResult]
  split_ifs <;> rfl

theorem getCachedNegative_new_miss (B : Int) (key : Str) (prep : Message)
    (now : Int) :
    getCachedNegative (some (NegCache.new B)) key prep now =
      (none, some (NegCache.new B)) := by
  simp only [getCachedNegative, NegCache.get, NegCache.new, findEntry]
  split_ifs <;> rfl

theorem set_new (B : Int) (key : Str) (v : AIResult) (ttl now : Int)
    (hk : key ≠ []) (ht : 0 < ttl) (hs : estimateEntrySizeBytes key v ≤ B) :
    (NegCache.new B).set key v ttl now =
      { maxBytes := B, totalBytes := 0 + estimateEntrySizeBytes key v,
        entries := [{ key := key, value := v, expiresAt := now + ttl,
                      sizeBytes := estimateEntrySizeBytes key v }] } := by
  unfold NegCache.set
  rw [if_neg (by push_neg; exact ⟨hk, by omega⟩)]
  have hmax : ¬ estimateEntrySizeBytes key v > (NegCache.new B).maxBytes := by
    show ¬ estimateEntrySizeBytes key v > B
    omega
  rw [if_neg hmax]
  have hfind : findEntry key (NegCache.new B).entries = none := rfl
  simp only [hfind]
  exact evictToFit_of_le _ (by show 0 + estimateEntrySizeBytes key v ≤ B; omega)

theorem getCachedNegative_hit_head (c : NegCache) (e : NegCacheEntry)
    (rest : List NegCacheEntry) (prep : Message) (now : Int)
    (hent : c.entries = e :: rest) (hk : e.key ≠ [])
    (hexp : ¬ now > e.expiresAt) :
    getCachedNegative (some c) e.key prep now =
      (some { e.value with messageID := prep.id, violatorUserID := prep.user },
       some { c with entries := e :: rest }) := by
  have hfind : findEntry e.key c.entries = some e := by
    rw [hent]
    simp [findEntry]
  have herase : eraseKey e.key c.entries = rest := by
    rw [hent]
    simp [eraseKey]
  simp only [getCachedNegative, NegCache.get, if_neg hk, hfind, herase,
    if_neg hexp]

theorem prepOne_queued (cfg : CoreConfig) (eng : EngineState)
    (cache cache2 : Option NegCache) (now : Int) (m : Message)
    (htr : findTriggers eng (prepMsg cfg m).data ≠ [])
    (hmiss : getCachedNegative cache (prepMsg cfg m).data (prepMsg cfg m) now =
      (none, cache2)) :
    prepOne cfg eng cache now false m =
      ((none, some (prepMsg cfg m, findTriggers eng (prepMsg cfg m).data)),
       cache2) := by
  simp only [prepOne, Bool.false_eq_true, if_false, if_neg htr, hmiss]

theorem prepOne_cache_hit (cfg : CoreConfig) (eng : EngineState)
    (cache cache2 : Option NegCache) (now : Int) (m : Message)
    (cached : AIResult)
    (htr : findTriggers eng (prepMsg cfg m).data ≠ [])
    (hhit : getCachedNegative cache (prepMsg cfg m).data (prepMsg cfg m) now =
      (some cached, cache2)) :
    prepOne cfg eng cache now false m =
      ((some { message := prepMsg cfg m, triggered := true,
               aiResult := if cached.triggerTokens = []
                 then { cached with
                          triggerTokens := findTriggers eng (prepMsg cfg m).data }
                 else cached }, none), cache2) := by
  simp only [prepOne, Bool.false_eq_true, if_false, if_neg htr, hhit]

/-- C4: two `ProcessMessage` calls with identical truncated data, the first
producing a cached valid AI verdict and the second arriving within the TTL,
invoke the analyzer exactly once (the first call submits the message, the
second submits nothing), and the second returned violation carries the
second message's id and user (the shared entry's ids are rewritten on
lookup). -/
theorem processMessage_cache_idempotent (cfg : CoreConfig)
    (analyze : List Message → Except String (List AIResult))
    (st : CoreState) (m₁ m₂ : Message) (now₁ now₂ B : Int) (r : AIResult)
    (hA : cfg.hasAnalyzer = true) (hS : cfg.hasStorage = true)
    (hM : 0 < cfg.maxMessageSize) (hT : 0 < cfg.cacheTTL)
    (hcache : st.cache = some (NegCache.new B))
    (hdata : (prepMsg cfg m₂).data = (prepMsg cfg m₁).data)
    (hkey : (prepMsg cfg m₁).data ≠ [])
    (htrig : findTriggers st.eng (prepMsg cfg m₁).data ≠ [])
    (hana : analyze [prepMsg cfg m₁] = Except.ok [r])
    (hrid : r.messageID = m₁.id)
    (hval : statusValid r.statusCode)
    (hsize : estimateEntrySizeBytes (prepMsg cfg m₁).data
      (normalizeResult r (prepMsg cfg m₁)
        (findTriggers st.eng (prepMsg cfg m₁).data)) ≤ B)
    (httl : now₂ ≤ now₁ + cfg.cacheTTL) :
    ∃ v₁ st₁ v₂ st₂,
      processBatchWithOptions cfg analyze st now₁ [m₁] false =
        Except.ok ([v₁], st₁, [prepMsg cfg m₁]) ∧
      processBatchWithOptions cfg analyze st₁ now₂ [m₂] false =
        Except.ok ([v₂], st₂, []) ∧
      v₂.aiResult.messageID = m₂.id ∧
      v₂.aiResult.violatorUserID = m₂.user := by
  set key : Str := (prepMsg cfg m₁).data with hkeydef
  set trg : List Str := findTriggers st.eng key with htrgdef
  set r2 : AIResult := normalizeResult r (prepMsg cfg m₁) trg with hr2
  set sz : Int := estimateEntrySizeBytes key r2 with hsz
  set entryC : NegCacheEntry := ⟨key, r2, now₁ + cfg.cacheTTL, sz⟩ with hentC
  set cacheC : NegCache := ⟨B, 0 + sz, [entryC]⟩ with hcC
  -- ingredients of the first call
  have hmiss := getCachedNegative_new_miss B key (prepMsg cfg m₁) now₁
  have hp1 : prepOne cfg st.eng st.cache now₁ false m₁ =
      ((none, some (prepMsg cfg m₁, trg)), some (NegCache.new B)) := by
    rw [hcache]
    exact prepOne_queued cfg st.eng _ _ now₁ m₁ htrig hmiss
  have hprep1 : prepareLoop cfg st.eng now₁ false [m₁] 0 st.cache =
      ([Violation.zero], [false],
       [{ index := 0, message := prepMsg cfg m₁, triggers := trg }],
       some (NegCache.new B)) := by
    simp only [prepareLoop, hp1]
  have hlook : lookupByID [r] (prepMsg cfg m₁).id = some r := by
    simp [lookupByID, prepMsg_id, hrid]
  have hmerge : mergeLoop cfg now₁ [r]
      [{ index := 0, message := prepMsg cfg m₁, triggers := trg }]
      { out := [Violation.zero], filled := [false], eng := st.eng,
        cache := some (NegCache.new B), persisted := st.persisted } =
      { out := [{ message := prepMsg cfg m₁,
                  triggered := decide (trg ≠ []), aiResult := r2 }],
        filled := [true], eng := (learn cfg st.eng r2).1,
        cache := setCachedNegative cfg (some (NegCache.new B)) key r2 now₁,
        persisted := st.persisted ++ (learn cfg st.eng r2).2 } := by
    simp only [mergeLoop, hlook, Option.getD_some, List.set]
  have hsetc : setCachedNegative cfg (some (NegCache.new B)) key r2 now₁ =
      some cacheC := by
    simp only [setCachedNegative]
    rw [if_neg hkey,
      if_neg (fun h => h (by rw [hr2, normalizeResult_statusCode]; exact hval)),
      set_new B key r2 cfg.cacheTTL now₁ hkey hT hsize]
  have hcall1 : processBatchWithOptions cfg analyze st now₁ [m₁] false =
      Except.ok
        ([{ message := prepMsg cfg m₁, triggered := decide (trg ≠ []),
            aiResult := r2 }],
         ⟨(learn cfg st.eng r2).1, some cacheC,
          st.persisted ++ (learn cfg st.eng r2).2⟩,
         [prepMsg cfg m₁]) := by
    unfold processBatchWithOptions
    rw [if_neg (by rw [hA]; exact fun h => h rfl),
      if_neg (by rw [hS]; exact fun h => h rfl),
      if_neg (by omega), if_neg (by simp)]
    simp only [hprep1]
    rw [if_neg (by simp)]
    simp only [List.map_cons, List.map_nil, hana, hmerge, hsetc]
    rfl
  -- ingredients of the second call
  have hmono := learn_engine_mono cfg st.eng r2
  have htrg2 : findTriggers (learn cfg st.eng r2).1 (prepMsg cfg m₂).data ≠ [] := by
    rw [hdata]
    obtain ⟨x, hx⟩ := List.exists_mem_of_ne_nil _ htrig
    exact List.ne_nil_of_mem (findTriggers_mono _ _ _ hmono.1 hmono.2 x hx)
  have hhit := getCachedNegative_hit_head cacheC entryC [] (prepMsg cfg m₂)
    now₂ rfl hkey (by show ¬ now₂ > now₁ + cfg.cacheTTL; omega)
  set cached : AIResult :=
    { r2 with messageID := (prepMsg cfg m₂).id,
              violatorUserID := (prepMsg cfg m₂).user } with hcached
  have hp2 : prepOne cfg (learn cfg st.eng r2).1 (some cacheC) now₂ false m₂ =
      ((some { message := prepMsg cfg m₂, triggered := true,
               aiResult := if cached.triggerTokens = []
                 then { cached with
                          triggerTokens :=
                            findTriggers (learn cfg st.eng r2).1
                              (prepMsg cfg m₂).data }
                 else cached }, none),
       some { cacheC with entries := entryC :: [] }) := by
    refine prepOne_cache_hit cfg _ _ _ now₂ m₂ cached htrg2 ?_
    rw [hdata]
    exact hhit
  have hprep2 : prepareLoop cfg (learn cfg st.eng r2).1 now₂ false [m₂] 0
      (some cacheC) =
      ([{ message := prepMsg cfg m₂, triggered := true,
          aiResult := if cached.triggerTokens = []
            then { cached with
                     triggerTokens :=
                       findTriggers (learn cfg st.eng r2).1
                         (prepMsg cfg m₂).data }
            else cached }],
       [true], [], some { cacheC with entries := entryC :: [] }) := by
    simp only [prepareLoop, hp2]
  have hcall2 : processBatchWithOptions cfg analyze
      ⟨(learn cfg st.eng r2).1, some cacheC,
       st.persisted ++ (learn cfg st.eng r2).2⟩ now₂ [m₂] false =
      Except.ok
        ([{ message := prepMsg cfg m₂, triggered := true,
            aiResult := if cached.triggerTokens = []
              then { cached with
                       triggerTokens :=
                         findTriggers (learn cfg st.eng r2).1
                           (prepMsg cfg m₂).data }
              else cached }],
         ⟨(learn cfg st.eng r2).1, some { cacheC with entries := entryC :: [] },
          st.persisted ++ (learn cfg st.eng r2).2⟩,
         []) := by
    unfold processBatchWithOptions
    rw [if_neg (by rw [hA]; exact fun h => h rfl),
      if_neg (by rw [hS]; exact fun h => h rfl),
      if_neg (by omega), if_neg (by simp)]
    simp only [hprep2]
    rw [if_pos trivial]
  refine ⟨_, _, _, _, hcall1, hcall2, ?_, ?_⟩
  · show (if cached.triggerTokens = []
        then { cached with
                 triggerTokens :=
                   findTriggers (learn cfg st.eng r2).1 (prepMsg cfg m₂).data }
        else cached).messageID = m₂.id
    split_ifs <;> show (prepMsg cfg m₂).id = m₂.id <;> exact prepMsg_id cfg m₂
  · show (if cached.triggerTokens = []
        then { cached with
                 triggerTokens :=
                   findTriggers (learn cfg st.eng r2).1 (prepMsg cfg m₂).data }
        else cached).violatorUserID = m₂.user
    split_ifs <;> show (prepMsg cfg m₂).user = m₂.user <;>
      exact prepMsg_user cfg m₂

def c4m₁ : Message :=
  { id := 1, dialogID := [], user := 2, data := str "bad stuff" }

def c4m₂ : Message :=
  { id := 5, dialogID := [], user := 6, data := str "bad stuff" }

def c4r : AIResult :=
  { statusCode := statusSuspicious, reason := [], confidence := 1,
    triggerTokens := [str "bad"], violatorUserID := 2, messageID := 1 }

theorem processMessage_cache_idempotent_witness :
    ∃ v₁ st₁ v₂ st₂,
      processBatchWithOptions witCfg witAna witSt 0 [c4m₁] false =
        Except.ok ([v₁], st₁, [prepMsg witCfg c4m₁]) ∧
      processBatchWithOptions witCfg witAna st₁ 100 [c4m₂] false =
        Except.ok ([v₂], st₂, []) ∧
      v₂.aiResult.messageID = c4m₂.id ∧
      v₂.aiResult.violatorUserID = c4m₂.user :=
  processMessage_cache_idempotent witCfg witAna witSt c4m₁ c4m₂ 0 100 65536 c4r
    (by rfl) (by rfl) (by decide) (by decide) (by rfl) (by rfl) (by decide)
    (by decide) (by rfl) (by rfl) (by decide) (by decide) (by decide)

end Censor
